import Mathlib

/-!
Verification development for the demangling core in
coregrind/m_demangle/demangle.c.

The C strings are modelled as `List Char` (a C string has no embedded NUL;
reading at or past the terminating NUL yields the character `'\x00'`, which
`getC` models by returning `'\x00'` out of range).  The C scanning loops are
modelled as fuel-indexed recursions; every caller supplies fuel that is at
least the length of the remaining input plus one, which the lemmas show is
always enough, so the out-of-fuel branches are unreachable.
-/

namespace Demangle

/-- Model of reading byte `i` of a NUL-terminated C string: out-of-range reads
return the NUL character. -/
def getC : List Char → Nat → Char
  | [], _ => '\x00'
  | c :: _, 0 => c
  | _ :: l, n + 1 => getC l n

/-- Model of VG_(isdigit). -/
def isDigitCh (c : Char) : Bool :=
  decide ('0' ≤ c) && decide (c ≤ '9')

/-- Numeric value of a decimal digit character, as in `(Int)sym[k] - '0'`. -/
def digitVal (c : Char) : Int :=
  (c.toNat : Int) - ('0'.toNat : Int)

/-- The Z-escape selector table of VG_(maybe_Z_demangle): the `switch (sym[i])`
cases shared by the soname and fnname decoding loops. -/
def zTable : Char → Option Char
  | 'a' => some '*'
  | 'c' => some ':'
  | 'd' => some '.'
  | 'h' => some '-'
  | 'p' => some '+'
  | 's' => some ' '
  | 'u' => some '_'
  | 'A' => some '@'
  | 'D' => some '$'
  | 'L' => some '('
  | 'P' => some '%'
  | 'R' => some ')'
  | 'S' => some '/'
  | 'Z' => some 'Z'
  | _ => none

/-- Result of one of the scanning loops of VG_(maybe_Z_demangle): the emitted
characters, the final value of the index `i`, and the `error` flag. -/
structure ScanRes where
  emit : List Char
  idx : Nat
  err : Bool
deriving DecidableEq

/-- The soname scanning loop of VG_(maybe_Z_demangle): stops without error at
the `_` delimiter, fails at the terminating NUL or at an unknown Z-escape
selector, otherwise emits table characters for `Z`-escape pairs and all other
bytes verbatim.  First argument past `sym` is fuel (see module comment). -/
def scanSoname (sym : List Char) : Nat → Nat → ScanRes
  | 0, i => ⟨[], i, true⟩
  | fuel + 1, i =>
    let c := getC sym i
    if c = '_' then ⟨[], i, false⟩
    else if c = '\x00' then ⟨[], i, true⟩
    else if c = 'Z' then
      match zTable (getC sym (i + 1)) with
      | some d =>
        let r := scanSoname sym fuel (i + 2)
        ⟨d :: r.emit, r.idx, r.err⟩
      | none => ⟨[], i + 1, true⟩
    else
      let r := scanSoname sym fuel (i + 1)
      ⟨c :: r.emit, r.idx, r.err⟩

/-- The encoded-fnname scanning loop of VG_(maybe_Z_demangle): same escape
decoding as the soname loop, but stops without error at the terminating NUL
and treats `_` as an ordinary verbatim byte. -/
def scanFnEnc (sym : List Char) : Nat → Nat → ScanRes
  | 0, i => ⟨[], i, true⟩
  | fuel + 1, i =>
    let c := getC sym i
    if c = '\x00' then ⟨[], i, false⟩
    else if c = 'Z' then
      match zTable (getC sym (i + 1)) with
      | some d =>
        let r := scanFnEnc sym fuel (i + 2)
        ⟨d :: r.emit, r.idx, r.err⟩
      | none => ⟨[], i + 1, true⟩
    else
      let r := scanFnEnc sym fuel (i + 1)
      ⟨c :: r.emit, r.idx, r.err⟩

/-- The verbatim-fnname copying loop of VG_(maybe_Z_demangle): copies bytes
from index `i` up to the terminating NUL. -/
def scanFnPlain (sym : List Char) (i : Nat) : List Char :=
  (sym.drop i).takeWhile (fun c => c ≠ '\x00')

/-- The 12-byte header check of VG_(maybe_Z_demangle) (the `valid` expression
before the tag/priority consistency clause). -/
def zValidBase (sym : List Char) : Bool :=
  (getC sym 0 == '_')
  && (getC sym 1 == 'v')
  && (getC sym 2 == 'g')
  && (getC sym 3 == 'r' || getC sym 3 == 'w')
  && isDigitCh (getC sym 4)
  && isDigitCh (getC sym 5)
  && isDigitCh (getC sym 6)
  && isDigitCh (getC sym 7)
  && isDigitCh (getC sym 8)
  && (getC sym 9 == 'Z')
  && (getC sym 10 == 'Z' || getC sym 10 == 'U')
  && (getC sym 11 == '_')

/-- The tag/priority consistency violation of VG_(maybe_Z_demangle): eclass
tag digits `0000` together with a non-zero priority digit. -/
def zTagViol (sym : List Char) : Bool :=
  (getC sym 4 == '0') && (getC sym 5 == '0') && (getC sym 6 == '0')
  && (getC sym 7 == '0') && (getC sym 8 != '0')

/-- The raw forbidden-prefix check of VG_(maybe_Z_demangle): bytes 12..16 of
the symbol are literally `VG_Z_`. -/
def rawVGZ (sym : List Char) : Bool :=
  (getC sym 12 == 'V') && (getC sym 13 == 'G') && (getC sym 14 == '_')
  && (getC sym 15 == 'Z') && (getC sym 16 == '_')

/-- How a call of VG_(maybe_Z_demangle) ends: returning False, hitting the
fatal vg_assert2 on the forbidden prefix, or returning True. -/
inductive ZRes where
  | fail
  | fatal
  | ok
deriving DecidableEq

/-- Observable outcome of VG_(maybe_Z_demangle): the result, the contents of
the soname and fnname output buffers (without the terminating NUL), and the
values written through the optional isWrap/eclassTag/eclassPrio pointers
(`none` models a pointer that was never written through). -/
structure ZOut where
  res : ZRes
  so : List Char
  fn : List Char
  isWrap : Option Bool
  eclassTag : Option Int
  eclassPrio : Option Int
deriving DecidableEq

/-- Model of VG_(maybe_Z_demangle).  The four Bool arguments model the
NULL-ness of the `so`, `isWrap`, `eclassTag` and `eclassPrio` out-pointers
(`true` = non-NULL; the `fn` out-pointer is mandatory in the C signature).
As in the C code, the soname decoding work happens regardless of `wantSo`,
but characters are stored (EMITSO) only when the pointer is non-NULL. -/
def maybe_Z_demangle (sym : List Char)
    (wantSo wantWrap wantTag wantPrio : Bool) : ZOut :=
  let valid := zValidBase sym && !zTagViol sym
  if !valid then
    { res := .fail, so := [], fn := [],
      isWrap := none, eclassTag := none, eclassPrio := none }
  else
    let fn_is_encoded := getC sym 10 == 'Z'
    let isWrapV : Option Bool := if wantWrap then some (getC sym 3 == 'w') else none
    let tagV : Option Int :=
      if wantTag then
        some (1000 * digitVal (getC sym 4) + 100 * digitVal (getC sym 5)
              + 10 * digitVal (getC sym 6) + 1 * digitVal (getC sym 7))
      else none
    let prioV : Option Int := if wantPrio then some (digitVal (getC sym 8)) else none
    if rawVGZ sym then
      { res := .fatal, so := [], fn := [],
        isWrap := isWrapV, eclassTag := tagV, eclassPrio := prioV }
    else
      let rSo := scanSoname sym (sym.length + 1) 12
      let soV := if wantSo then rSo.emit else []
      if rSo.err then
        { res := .fail, so := soV, fn := [],
          isWrap := isWrapV, eclassTag := tagV, eclassPrio := prioV }
      else
        let i := rSo.idx + 1
        if fn_is_encoded then
          let rFn := scanFnEnc sym (sym.length + 1) i
          { res := if rFn.err then .fail else .ok, so := soV, fn := rFn.emit,
            isWrap := isWrapV, eclassTag := tagV, eclassPrio := prioV }
        else
          { res := .ok, so := soV, fn := scanFnPlain sym i,
            isWrap := isWrapV, eclassTag := tagV, eclassPrio := prioV }

/-! ## Rust hash heuristic (rust_is_mangled) -/

/-- Lowercase hexadecimal digit test, as in is_prefixed_hash. -/
def isLowerHex (c : Char) : Bool :=
  (decide ('0' ≤ c) && decide (c ≤ '9')) || (decide ('a' ≤ c) && decide (c ≤ 'f'))

/-- Value of a lowercase hexadecimal digit (the index into the `seen` array of
is_prefixed_hash). -/
def hexVal (c : Char) : Nat :=
  if decide ('0' ≤ c) && decide (c ≤ '9') then c.toNat - '0'.toNat
  else c.toNat - 'a'.toNat + 10

/-- Model of is_prefixed_hash: the argument is the final 19 characters of the
symbol.  It must start with the literal `::h`, be followed by 16 lowercase hex
digits (a NUL or end-of-string inside that window fails the hex test in the C
loop, modelled by the length check), and those digits must use between 5 and
15 distinct values; the count is the C loop over the `seen` array. -/
def is_prefixed_hash (l : List Char) : Bool :=
  if l.take 3 ≠ [':', ':', 'h'] then false
  else
    let digits := (l.drop 3).take 16
    if digits.length ≠ 16 then false
    else if !(digits.all isLowerHex) then false
    else
      let count := (List.range 16).countP (fun v => digits.any (fun c => hexVal c = v))
      decide (5 ≤ count) && decide (count ≤ 15)

/-- The token sequences tested by the `case '$'` branch of looks_like_rust,
in source order (the chain of VG_(strncmp) tests). -/
def lrTokens : List (List Char) :=
  [ ['$', 'C', '$'],
    ['$', 'S', 'P', '$'], ['$', 'B', 'P', '$'], ['$', 'R', 'F', '$'],
    ['$', 'L', 'T', '$'], ['$', 'G', 'T', '$'], ['$', 'L', 'P', '$'],
    ['$', 'R', 'P', '$'],
    ['$', 'u', '2', '0', '$'], ['$', 'u', '2', '2', '$'], ['$', 'u', '2', '7', '$'],
    ['$', 'u', '2', 'b', '$'], ['$', 'u', '3', 'b', '$'], ['$', 'u', '5', 'b', '$'],
    ['$', 'u', '5', 'd', '$'], ['$', 'u', '7', 'b', '$'], ['$', 'u', '7', 'd', '$'],
    ['$', 'u', '7', 'e', '$'] ]

/-- The `$`-token cascade of looks_like_rust: the first VG_(strncmp) test of
the chain that matches a prefix of the input consumes its token (a strncmp
against a sequence succeeds exactly when the sequence is a prefix of the
remaining input). -/
def lrToken (l : List Char) : Option (List Char) :=
  (lrTokens.find? (fun tok => tok.isPrefixOf l)).map (fun tok => l.drop tok.length)

/-- ASCII letter or decimal digit. -/
def isLetterDigit (c : Char) : Bool :=
  (decide ('a' ≤ c) && decide (c ≤ 'z'))
  || (decide ('A' ≤ c) && decide (c ≤ 'Z'))
  || (decide ('0' ≤ c) && decide (c ≤ '9'))

/-- Model of looks_like_rust on the pre-hash part of the symbol (the C scan is
bounded by `end = str + len`; at the call site the scanned region is followed
by the hash suffix `::h...`, which contains no `$` and no `.`, so no token
test and no triple-dot test can succeed across the boundary and scanning the
truncated list is equivalent).  First argument is fuel. -/
def looks_like_rust : Nat → List Char → Bool
  | _, [] => true
  | 0, _ :: _ => false
  | fuel + 1, c :: rest =>
    if c = '$' then
      match lrToken (c :: rest) with
      | some r => looks_like_rust fuel r
      | none => false
    else if c = '.' then
      if (c :: rest).take 3 = ['.', '.', '.'] then false
      else looks_like_rust fuel rest
    else if isLetterDigit c || c = '_' || c = ':' then looks_like_rust fuel rest
    else false

/-- Model of rust_is_mangled (the NULL case of the C function does not arise
for `List Char`): requires length greater than 19 so that something precedes
the `::h` + 16-digit hash, checks the hash with is_prefixed_hash, and scans
everything before it with looks_like_rust. -/
def rust_is_mangled (sym : List Char) : Bool :=
  let len := sym.length
  if len ≤ 19 then false
  else
    let lwh := len - 19
    is_prefixed_hash (sym.drop lwh) && looks_like_rust sym.length (sym.take lwh)

/-! ## Rust in-place decoder (rust_demangle_sym) -/

/-- The (sequence, replacement) pairs of the unescape(...) chain in the
`case '$'` branch of rust_demangle_sym, in source order. -/
def rustPairs : List (List Char × Char) :=
  [ (['$', 'C', '$'], ','),
    (['$', 'S', 'P', '$'], '@'), (['$', 'B', 'P', '$'], '*'),
    (['$', 'R', 'F', '$'], '&'), (['$', 'L', 'T', '$'], '<'),
    (['$', 'G', 'T', '$'], '>'), (['$', 'L', 'P', '$'], '('),
    (['$', 'R', 'P', '$'], ')'),
    (['$', 'u', '2', '0', '$'], ' '), (['$', 'u', '2', '2', '$'], Char.ofNat 34),
    (['$', 'u', '2', '7', '$'], Char.ofNat 39), (['$', 'u', '2', 'b', '$'], '+'),
    (['$', 'u', '3', 'b', '$'], ';'), (['$', 'u', '5', 'b', '$'], '['),
    (['$', 'u', '5', 'd', '$'], ']'), (['$', 'u', '7', 'b', '$'], '\x7b'),
    (['$', 'u', '7', 'd', '$'], '\x7d'), (['$', 'u', '7', 'e', '$'], '~') ]

/-- The unescape cascade of rust_demangle_sym: the first unescape(...) call
whose sequence matches a prefix of the remaining input consumes it and
produces the replacement character (unescape's VG_(strncmp) succeeds exactly
when the sequence is a prefix). -/
def rustUnescape (l : List Char) : Option (Char × List Char) :=
  (rustPairs.find? (fun p => p.1.isPrefixOf l)).map (fun p => (p.2, l.drop p.1.length))

/-- Result of the scanning loop of rust_demangle_sym: the characters written
through the `out` cursor before the final NUL, and whether the `fail` label
was reached (a `?` emitted and the scan cut short). -/
structure RustRes where
  out : List Char
  failed : Bool
deriving DecidableEq

/-- Model of the scanning loop of rust_demangle_sym on the region before the
hash suffix.  `prev` is the last input character already consumed (`none` at
the start), used by the `_`-dropping rule, which tests `in[-1]`.  The `_` rule and the
`.` rule also read `in[1]`, which may be one past the region: at the call
site that character is the `:` starting the hash prefix, hence the `':'`
defaults in the headD reads.  First argument is fuel. -/
def rustScan : Nat → Option Char → List Char → RustRes
  | _, _, [] => ⟨[], false⟩
  | 0, _, _ :: _ => ⟨[], false⟩
  | fuel + 1, prev, c :: rest =>
    if c = '$' then
      (rustUnescape (c :: rest)).elim ⟨['?'], true⟩ (fun p =>
        let q := rustScan fuel (some '$') p.2
        ⟨p.1 :: q.out, q.failed⟩)
    else if c = '_' then
      if (prev = none ∨ prev = some ':') ∧ rest.headD ':' = '$' then
        rustScan fuel (some '_') rest
      else
        let q := rustScan fuel (some '_') rest
        ⟨'_' :: q.out, q.failed⟩
    else if c = '.' then
      if rest.headD ':' = '.' then
        let q := rustScan fuel (some '.') rest.tail
        ⟨':' :: ':' :: q.out, q.failed⟩
      else
        let q := rustScan fuel (some '.') rest
        ⟨'-' :: q.out, q.failed⟩
    else if isLetterDigit c || c = ':' then
      let q := rustScan fuel (some c) rest
      ⟨c :: q.out, q.failed⟩
    else ⟨['?'], true⟩

/-- Model of rust_demangle_sym, as a function from the buffer contents to the
scan result; the final buffer contents (up to the NUL written at `done`) are
the `out` field.  The scanned region is everything before the 19-character
hash suffix (the documented precondition rust_is_mangled guarantees the
length exceeds 19). -/
def rust_demangle_res (sym : List Char) : RustRes :=
  rustScan sym.length none (sym.take (sym.length - 19))

/-- The buffer contents left by rust_demangle_sym. -/
def rust_demangle_sym (sym : List Char) : List Char :=
  (rust_demangle_res sym).out

/-! ## Pipeline orchestrator (VG_(demangle)) -/

/-- Heap events of one VG_(demangle) call: freeing a buffer (identified by its
contents) and invoking the external stage-1 demangler ML_(cplus_demangle). -/
inductive Ev where
  | free (buf : List Char)
  | callCxx (arg : List Char)
deriving DecidableEq

/-- Observable result of one VG_(demangle) call: the string `*result` points
to, the new value of the static `demangled` pointer (the retained
SharedOutputBuffer), and the heap events in order. -/
structure DemRet where
  result : List Char
  st : Option (List Char)
  evs : List Ev
deriving DecidableEq

/-- The Z-undoing step at the top of VG_(demangle): the symbol is replaced by
the Z-decoded fnname when do_z_demangling is set and VG_(maybe_Z_demangle)
succeeds (called with a NULL soname pointer and NULL metadata pointers). -/
def zPass (do_z : Bool) (orig : List Char) : List Char :=
  if do_z && (maybe_Z_demangle orig false false false false).res == .ok then
    (maybe_Z_demangle orig false false false false).fn
  else orig

/-- Model of VG_(demangle).  `cxx` is the external stage-1 demangler
ML_(cplus_demangle) (pure collaborator), `clo` is VG_(clo_demangle), and `st`
is the value of the static `demangled` pointer on entry.  The result is
`none` when the call dies in the forbidden-prefix vg_assert2 inside
VG_(maybe_Z_demangle) (which can only happen when do_z is set).  The in-place
Rust stage is modelled by rust_demangle_sym; its own vg_assert is shown to
hold separately. -/
def VG_demangle (cxx : List Char → Option (List Char))
    (do_cxx do_z clo : Bool) (orig : List Char)
    (st : Option (List Char)) : Option DemRet :=
  if do_z && (maybe_Z_demangle orig false false false false).res == .fatal then
    none
  else
    let orig1 := zPass do_z orig
    if do_cxx && clo && (getC orig1 0 == '_') && (getC orig1 1 == 'Z') then
      let evs := (match st with
                  | some b => [Ev.free b]
                  | none => []) ++ [Ev.callCxx orig1]
      match cxx orig1 with
      | none => some ⟨orig1, none, evs⟩
      | some d =>
        let d' := if rust_is_mangled d then rust_demangle_sym d else d
        some ⟨d', some d', evs⟩
    else
      some ⟨orig1, st, []⟩

/-! ## Spec-side definitions

The following definitions are written from the specification's words, not
from the C code; they exist to be compared with the code-level definitions
above in the refinement claims. -/

/-- Modelled from the spec (grammar of section 4.1): the fixed-width 12-byte
header template, stated on the list structure of the symbol. -/
def specHdrMatch (sym : List Char) : Bool :=
  match sym with
  | c0 :: c1 :: c2 :: rw :: d1 :: d2 :: d3 :: d4 :: d5 :: c9 :: sel :: c11 :: _ =>
    (c0 == '_') && (c1 == 'v') && (c2 == 'g')
    && (rw == 'r' || rw == 'w')
    && isDigitCh d1 && isDigitCh d2 && isDigitCh d3 && isDigitCh d4 && isDigitCh d5
    && (c9 == 'Z') && (sel == 'Z' || sel == 'U')
    && (c11 == '_')
  | _ => false

/-- Modelled from the spec: decoding of one Z-escaped field, defined by the
escape alphabet alone: a sentinel `Z` followed by a selector letter becomes
the table character, any other byte is copied verbatim; a selector outside
the table (or a dangling sentinel) is a decode failure. -/
def zDecodeField : List Char → Option (List Char)
  | [] => some []
  | c :: rest =>
    if c = 'Z' then
      match rest with
      | [] => none
      | c2 :: rest2 =>
        match zTable c2 with
        | some d => (zDecodeField rest2).map (fun t => d :: t)
        | none => none
    else (zDecodeField rest).map (fun t => c :: t)

/-- Modelled from the spec: assembling a symbol that matches the Z-encoding
grammar of section 4.1 from its constituents. -/
def zAssemble (rw d1 d2 d3 d4 d5 sel : Char) (soEnc fnPart : List Char) : List Char :=
  '_' :: 'v' :: 'g' :: rw :: d1 :: d2 :: d3 :: d4 :: d5 :: 'Z' :: sel :: '_'
    :: (soEnc ++ '_' :: fnPart)

/-- The Rust escape-token alphabet, as listed in the spec (section 4.3). -/
def rustTokens : List (List Char) :=
  [ ['$', 'C', '$'],
    ['$', 'S', 'P', '$'], ['$', 'B', 'P', '$'], ['$', 'R', 'F', '$'],
    ['$', 'L', 'T', '$'], ['$', 'G', 'T', '$'], ['$', 'L', 'P', '$'],
    ['$', 'R', 'P', '$'],
    ['$', 'u', '2', '0', '$'], ['$', 'u', '2', '2', '$'], ['$', 'u', '2', '7', '$'],
    ['$', 'u', '2', 'b', '$'], ['$', 'u', '3', 'b', '$'], ['$', 'u', '5', 'b', '$'],
    ['$', 'u', '5', 'd', '$'], ['$', 'u', '7', 'b', '$'], ['$', 'u', '7', 'd', '$'],
    ['$', 'u', '7', 'e', '$'] ]

/-- Modelled from the spec: a unit of the pre-hash part of a Rust-mangled
name — a single allowed character (a-z, A-Z, 0-9, underscore, colon, dot) or
one recognized escape token. -/
def SpecUnit (u : List Char) : Prop :=
  (∃ c, u = [c] ∧ (isLetterDigit c || c = '_' || c = ':' || c = '.') = true)
  ∨ u ∈ rustTokens

/-- Modelled from the spec: the pre-hash part splits into allowed units. -/
def SpecPrefixOK (l : List Char) : Prop :=
  ∃ us : List (List Char), l = us.flatten ∧ ∀ u ∈ us, SpecUnit u

/-- Three or more consecutive dots occur somewhere in the string. -/
def hasTripleDot : List Char → Bool
  | c1 :: c2 :: c3 :: rest =>
    ((c1 == '.') && (c2 == '.') && (c3 == '.')) || hasTripleDot (c2 :: c3 :: rest)
  | _ => false

/-- Modelled from the spec: the number of distinct hex digit values among the
hash digits. -/
def specDistinctCount (digits : List Char) : Nat :=
  (digits.map hexVal).dedup.length

/-- Modelled from the spec: the whole rust_is_mangled contract of claim C4 —
the string ends in the literal `::h` followed by exactly 16 lowercase hex
digits, at least one character precedes that suffix, the digits use between 5
and 15 distinct values, and everything before the suffix is made of allowed
characters and recognized tokens with no run of three or more dots. -/
def SpecRustMangled (sym : List Char) : Prop :=
  ∃ pre h16, sym = pre ++ ':' :: ':' :: 'h' :: h16
    ∧ pre ≠ []
    ∧ h16.length = 16
    ∧ (∀ c ∈ h16, isLowerHex c = true)
    ∧ 5 ≤ specDistinctCount h16 ∧ specDistinctCount h16 ≤ 15
    ∧ SpecPrefixOK pre
    ∧ hasTripleDot pre = false

/-! ## Helper lemmas -/

theorem getC_nil (i : Nat) : getC [] i = '\x00' := by
  cases i <;> rfl

theorem getC_append (pre l : List Char) (k : Nat) :
    getC (pre ++ l) (pre.length + k) = getC l k := by
  induction pre with
  | nil => simp [getC]
  | cons c pre ih =>
    have : (c :: pre).length + k = (pre.length + k) + 1 := by
      simp [List.length_cons]; omega
    rw [this]
    simpa [getC] using ih

theorem getC_eq_nul_of_le (l : List Char) (i : Nat) (h : l.length ≤ i) :
    getC l i = '\x00' := by
  induction l generalizing i with
  | nil => exact getC_nil i
  | cons c t ih =>
    cases i with
    | zero => simp at h
    | succ j =>
      simp only [List.length_cons] at h
      exact ih j (by omega)

theorem lt_of_getC_ne_nul (l : List Char) (i : Nat) (h : getC l i ≠ '\x00') :
    i < l.length := by
  by_contra hcon
  exact h (getC_eq_nul_of_le l i (by omega))


theorem scanSoname_step_delim (sym : List Char) (fuel i : Nat)
    (hc : getC sym i = '_') :
    scanSoname sym (fuel + 1) i = ⟨[], i, false⟩ := by
  conv_lhs => unfold scanSoname
  simp only [hc]
  rw [if_pos trivial]

theorem scanSoname_step_nul (sym : List Char) (fuel i : Nat)
    (hc : getC sym i = '\x00') :
    scanSoname sym (fuel + 1) i = ⟨[], i, true⟩ := by
  conv_lhs => unfold scanSoname
  simp only [hc]
  simp

theorem scanSoname_step_esc (sym : List Char) (fuel i : Nat)
    (hc : getC sym i = 'Z') :
    scanSoname sym (fuel + 1) i =
      (match zTable (getC sym (i + 1)) with
       | some d =>
         ⟨d :: (scanSoname sym fuel (i + 2)).emit, (scanSoname sym fuel (i + 2)).idx,
          (scanSoname sym fuel (i + 2)).err⟩
       | none => ⟨[], i + 1, true⟩) := by
  conv_lhs => unfold scanSoname
  simp only [hc]
  simp

theorem scanSoname_step_lit (sym : List Char) (fuel i : Nat) (c : Char)
    (hc : getC sym i = c) (h1 : ¬ (c = '_')) (h2 : ¬ (c = '\x00')) (h3 : ¬ (c = 'Z')) :
    scanSoname sym (fuel + 1) i =
      ⟨c :: (scanSoname sym fuel (i + 1)).emit, (scanSoname sym fuel (i + 1)).idx,
       (scanSoname sym fuel (i + 1)).err⟩ := by
  conv_lhs => unfold scanSoname
  simp only [hc]
  rw [if_neg h1, if_neg h2, if_neg h3]


theorem zDecodeField_nil : zDecodeField [] = some [] := rfl

theorem zDecodeField_cons_ne (c : Char) (tl : List Char) (h : ¬ (c = 'Z')) :
    zDecodeField (c :: tl) = (zDecodeField tl).map (fun t => c :: t) := by
  conv_lhs => unfold zDecodeField
  rw [if_neg h]

theorem zDecodeField_Z_nil : zDecodeField ['Z'] = none := rfl

theorem zDecodeField_Z_cons (c2 : Char) (tl2 : List Char) :
    zDecodeField ('Z' :: c2 :: tl2) =
      (match zTable c2 with
       | some d => (zDecodeField tl2).map (fun t => d :: t)
       | none => none) := by
  conv_lhs => unfold zDecodeField
  rw [if_pos rfl]

theorem scanSoname_ok (fuel : Nat) (enc dec rest pre : List Char)
    (hfuel : enc.length + 1 ≤ fuel)
    (h0 : '\x00' ∉ enc) (hU : '_' ∉ enc)
    (hdec : zDecodeField enc = some dec) :
    scanSoname (pre ++ (enc ++ '_' :: rest)) fuel pre.length
      = ⟨dec, pre.length + enc.length, false⟩ := by
  induction fuel generalizing enc dec pre with
  | zero => omega
  | succ fuel ih =>
    match enc with
    | [] =>
      rw [zDecodeField_nil] at hdec
      obtain rfl : ([] : List Char) = dec := Option.some.inj hdec
      have hc : getC (pre ++ ([] ++ '_' :: rest)) pre.length = '_' := by
        simpa using getC_append pre ('_' :: rest) 0
      rw [scanSoname_step_delim _ _ _ hc]
      simp
    | c :: tl =>
      by_cases hcz : c = 'Z'
      · subst hcz
        match tl, hdec with
        | c2 :: tl2, hdec =>
          rw [zDecodeField_Z_cons] at hdec
          cases hzt : zTable c2 with
          | none => rw [hzt] at hdec; simp at hdec
          | some d =>
            rw [hzt] at hdec
            cases hdec2 : zDecodeField tl2 with
            | none => rw [hdec2] at hdec; simp at hdec
            | some dec' =>
              rw [hdec2] at hdec
              obtain rfl : d :: dec' = dec := by simpa using hdec
              have hc : getC (pre ++ ('Z' :: c2 :: tl2 ++ '_' :: rest)) pre.length = 'Z' := by
                simpa using getC_append pre ('Z' :: c2 :: tl2 ++ '_' :: rest) 0
              have hc2 : getC (pre ++ ('Z' :: c2 :: tl2 ++ '_' :: rest)) (pre.length + 1) = c2 := by
                simpa using getC_append pre ('Z' :: c2 :: tl2 ++ '_' :: rest) 1
              rw [scanSoname_step_esc _ _ _ hc, hc2, hzt]
              have hre : pre ++ ('Z' :: c2 :: tl2 ++ '_' :: rest)
                  = (pre ++ ['Z', c2]) ++ (tl2 ++ '_' :: rest) := by simp
              have hlen : pre.length + 2 = (pre ++ ['Z', c2]).length := by simp
              rw [hre, hlen]
              have hih := ih tl2 dec' (pre ++ ['Z', c2])
                (by simp at hfuel ⊢; omega)
                (by intro hmem; exact h0 (by simp [hmem]))
                (by intro hmem; exact hU (by simp [hmem]))
                hdec2
              rw [hih]
              show ScanRes.mk (d :: dec') ((pre ++ ['Z', c2]).length + tl2.length) false
                = ScanRes.mk (d :: dec') (pre.length + ('Z' :: c2 :: tl2).length) false
              have hx : (pre ++ ['Z', c2]).length + tl2.length
                  = pre.length + ('Z' :: c2 :: tl2).length := by
                simp only [List.length_append, List.length_cons, List.length_nil]
                omega
              rw [hx]
      · rw [zDecodeField_cons_ne c tl hcz] at hdec
        cases hdec2 : zDecodeField tl with
        | none => rw [hdec2] at hdec; simp at hdec
        | some dec' =>
          rw [hdec2] at hdec
          obtain rfl : c :: dec' = dec := by simpa using hdec
          have hc : getC (pre ++ (c :: tl ++ '_' :: rest)) pre.length = c := by
            simpa using getC_append pre (c :: tl ++ '_' :: rest) 0
          have hcu : ¬ (c = '_') := fun h => hU (by simp [h])
          have hcn : ¬ (c = '\x00') := fun h => h0 (by simp [h])
          rw [scanSoname_step_lit _ _ _ c hc hcu hcn hcz]
          have hre : pre ++ (c :: tl ++ '_' :: rest)
              = (pre ++ [c]) ++ (tl ++ '_' :: rest) := by simp
          have hlen : pre.length + 1 = (pre ++ [c]).length := by simp
          rw [hre, hlen]
          have hih := ih tl dec' (pre ++ [c])
            (by simp at hfuel ⊢; omega)
            (fun hmem => h0 (by simp [hmem]))
            (fun hmem => hU (by simp [hmem]))
            hdec2
          rw [hih]
          show ScanRes.mk (c :: dec') ((pre ++ [c]).length + tl.length) false
            = ScanRes.mk (c :: dec') (pre.length + (c :: tl).length) false
          have hx : (pre ++ [c]).length + tl.length = pre.length + (c :: tl).length := by
            simp only [List.length_append, List.length_cons, List.length_nil]
            omega
          rw [hx]


theorem scanSoname_err (fuel : Nat) (enc rest pre : List Char)
    (hfuel : enc.length + 1 ≤ fuel)
    (h0 : '\x00' ∉ enc) (hU : '_' ∉ enc)
    (hdec : zDecodeField enc = none) :
    (scanSoname (pre ++ (enc ++ '_' :: rest)) fuel pre.length).err = true := by
  induction fuel generalizing enc pre with
  | zero => omega
  | succ fuel ih =>
    match enc with
    | [] => rw [zDecodeField_nil] at hdec; cases hdec
    | c :: tl =>
      by_cases hcz : c = 'Z'
      · subst hcz
        have hc : getC (pre ++ ('Z' :: tl ++ '_' :: rest)) pre.length = 'Z' := by
          simpa using getC_append pre ('Z' :: tl ++ '_' :: rest) 0
        match tl with
        | [] =>
          have hc2 : getC (pre ++ ('Z' :: [] ++ '_' :: rest)) (pre.length + 1) = '_' := by
            simpa using getC_append pre ('Z' :: '_' :: rest) 1
          rw [scanSoname_step_esc _ _ _ hc, hc2]
          rfl
        | c2 :: tl2 =>
          rw [zDecodeField_Z_cons] at hdec
          have hc2 : getC (pre ++ ('Z' :: c2 :: tl2 ++ '_' :: rest)) (pre.length + 1) = c2 := by
            simpa using getC_append pre ('Z' :: c2 :: tl2 ++ '_' :: rest) 1
          rw [scanSoname_step_esc _ _ _ hc, hc2]
          cases hzt : zTable c2 with
          | none => rfl
          | some d =>
            rw [hzt] at hdec
            have hdec2 : zDecodeField tl2 = none := by
              cases hx : zDecodeField tl2 with
              | none => rfl
              | some dec' => rw [hx] at hdec; simp at hdec
            have hre : pre ++ ('Z' :: c2 :: tl2 ++ '_' :: rest)
                = (pre ++ ['Z', c2]) ++ (tl2 ++ '_' :: rest) := by simp
            have hlen : pre.length + 2 = (pre ++ ['Z', c2]).length := by simp
            rw [hre, hlen]
            exact ih tl2 (pre ++ ['Z', c2])
              (by simp at hfuel ⊢; omega)
              (by intro hmem; exact h0 (by simp [hmem]))
              (by intro hmem; exact hU (by simp [hmem]))
              hdec2
      · rw [zDecodeField_cons_ne c tl hcz] at hdec
        have hdec2 : zDecodeField tl = none := by
          cases hx : zDecodeField tl with
          | none => rfl
          | some dec' => rw [hx] at hdec; simp at hdec
        have hc : getC (pre ++ (c :: tl ++ '_' :: rest)) pre.length = c := by
          simpa using getC_append pre (c :: tl ++ '_' :: rest) 0
        have hcu : ¬ (c = '_') := fun h => hU (by simp [h])
        have hcn : ¬ (c = '\x00') := fun h => h0 (by simp [h])
        rw [scanSoname_step_lit _ _ _ c hc hcu hcn hcz]
        have hre : pre ++ (c :: tl ++ '_' :: rest)
            = (pre ++ [c]) ++ (tl ++ '_' :: rest) := by simp
        have hlen : pre.length + 1 = (pre ++ [c]).length := by simp
        rw [hre, hlen]
        exact ih tl (pre ++ [c])
          (by simp at hfuel ⊢; omega)
          (fun hmem => h0 (by simp [hmem]))
          (fun hmem => hU (by simp [hmem]))
          hdec2


theorem scanFnEnc_step_nul (sym : List Char) (fuel i : Nat)
    (hc : getC sym i = '\x00') :
    scanFnEnc sym (fuel + 1) i = ⟨[], i, false⟩ := by
  conv_lhs => unfold scanFnEnc
  simp only [hc]
  simp

theorem scanFnEnc_step_esc (sym : List Char) (fuel i : Nat)
    (hc : getC sym i = 'Z') :
    scanFnEnc sym (fuel + 1) i =
      (match zTable (getC sym (i + 1)) with
       | some d =>
         ⟨d :: (scanFnEnc sym fuel (i + 2)).emit, (scanFnEnc sym fuel (i + 2)).idx,
          (scanFnEnc sym fuel (i + 2)).err⟩
       | none => ⟨[], i + 1, true⟩) := by
  conv_lhs => unfold scanFnEnc
  simp only [hc]
  simp

theorem scanFnEnc_step_lit (sym : List Char) (fuel i : Nat) (c : Char)
    (hc : getC sym i = c) (h2 : ¬ (c = '\x00')) (h3 : ¬ (c = 'Z')) :
    scanFnEnc sym (fuel + 1) i =
      ⟨c :: (scanFnEnc sym fuel (i + 1)).emit, (scanFnEnc sym fuel (i + 1)).idx,
       (scanFnEnc sym fuel (i + 1)).err⟩ := by
  conv_lhs => unfold scanFnEnc
  simp only [hc]
  rw [if_neg h2, if_neg h3]

theorem scanFnEnc_ok (fuel : Nat) (enc dec pre : List Char)
    (hfuel : enc.length + 1 ≤ fuel)
    (h0 : '\x00' ∉ enc)
    (hdec : zDecodeField enc = some dec) :
    scanFnEnc (pre ++ enc) fuel pre.length = ⟨dec, pre.length + enc.length, false⟩ := by
  induction fuel generalizing enc dec pre with
  | zero => omega
  | succ fuel ih =>
    match enc with
    | [] =>
      rw [zDecodeField_nil] at hdec
      obtain rfl : ([] : List Char) = dec := Option.some.inj hdec
      have hc : getC (pre ++ []) pre.length = '\x00' := by
        rw [List.append_nil]
        exact getC_eq_nul_of_le _ _ (Nat.le_refl _)
      rw [scanFnEnc_step_nul _ _ _ hc]
      simp
    | c :: tl =>
      by_cases hcz : c = 'Z'
      · subst hcz
        match tl, hdec with
        | c2 :: tl2, hdec =>
          rw [zDecodeField_Z_cons] at hdec
          cases hzt : zTable c2 with
          | none => rw [hzt] at hdec; simp at hdec
          | some d =>
            rw [hzt] at hdec
            cases hdec2 : zDecodeField tl2 with
            | none => rw [hdec2] at hdec; simp at hdec
            | some dec' =>
              rw [hdec2] at hdec
              obtain rfl : d :: dec' = dec := by simpa using hdec
              have hc : getC (pre ++ ('Z' :: c2 :: tl2)) pre.length = 'Z' := by
                simpa using getC_append pre ('Z' :: c2 :: tl2) 0
              have hc2 : getC (pre ++ ('Z' :: c2 :: tl2)) (pre.length + 1) = c2 := by
                simpa using getC_append pre ('Z' :: c2 :: tl2) 1
              rw [scanFnEnc_step_esc _ _ _ hc, hc2, hzt]
              have hre : pre ++ ('Z' :: c2 :: tl2) = (pre ++ ['Z', c2]) ++ tl2 := by simp
              have hlen : pre.length + 2 = (pre ++ ['Z', c2]).length := by simp
              rw [hre, hlen]
              have hih := ih tl2 dec' (pre ++ ['Z', c2])
                (by simp at hfuel ⊢; omega)
                (by intro hmem; exact h0 (by simp [hmem]))
                hdec2
              rw [hih]
              show ScanRes.mk (d :: dec') ((pre ++ ['Z', c2]).length + tl2.length) false
                = ScanRes.mk (d :: dec') (pre.length + ('Z' :: c2 :: tl2).length) false
              have hx : (pre ++ ['Z', c2]).length + tl2.length
                  = pre.length + ('Z' :: c2 :: tl2).length := by
                simp only [List.length_append, List.length_cons, List.length_nil]
                omega
              rw [hx]
      · rw [zDecodeField_cons_ne c tl hcz] at hdec
        cases hdec2 : zDecodeField tl with
        | none => rw [hdec2] at hdec; simp at hdec
        | some dec' =>
          rw [hdec2] at hdec
          obtain rfl : c :: dec' = dec := by simpa using hdec
          have hc : getC (pre ++ (c :: tl)) pre.length = c := by
            simpa using getC_append pre (c :: tl) 0
          have hcn : ¬ (c = '\x00') := fun h => h0 (by simp [h])
          rw [scanFnEnc_step_lit _ _ _ c hc hcn hcz]
          have hre : pre ++ (c :: tl) = (pre ++ [c]) ++ tl := by simp
          have hlen : pre.length + 1 = (pre ++ [c]).length := by simp
          rw [hre, hlen]
          have hih := ih tl dec' (pre ++ [c])
            (by simp at hfuel ⊢; omega)
            (fun hmem => h0 (by simp [hmem]))
            hdec2
          rw [hih]
          show ScanRes.mk (c :: dec') ((pre ++ [c]).length + tl.length) false
            = ScanRes.mk (c :: dec') (pre.length + (c :: tl).length) false
          have hx : (pre ++ [c]).length + tl.length = pre.length + (c :: tl).length := by
            simp only [List.length_append, List.length_cons, List.length_nil]
            omega
          rw [hx]

theorem scanFnEnc_err (fuel : Nat) (enc pre : List Char)
    (hfuel : enc.length + 1 ≤ fuel)
    (h0 : '\x00' ∉ enc)
    (hdec : zDecodeField enc = none) :
    (scanFnEnc (pre ++ enc) fuel pre.length).err = true := by
  induction fuel generalizing enc pre with
  | zero => omega
  | succ fuel ih =>
    match enc with
    | [] => rw [zDecodeField_nil] at hdec; cases hdec
    | c :: tl =>
      by_cases hcz : c = 'Z'
      · subst hcz
        have hc : getC (pre ++ ('Z' :: tl)) pre.length = 'Z' := by
          simpa using getC_append pre ('Z' :: tl) 0
        match tl with
        | [] =>
          have hc2 : getC (pre ++ ['Z']) (pre.length + 1) = '\x00' := by
            apply getC_eq_nul_of_le
            simp
          rw [scanFnEnc_step_esc _ _ _ hc, hc2]
          rfl
        | c2 :: tl2 =>
          rw [zDecodeField_Z_cons] at hdec
          have hc2 : getC (pre ++ ('Z' :: c2 :: tl2)) (pre.length + 1) = c2 := by
            simpa using getC_append pre ('Z' :: c2 :: tl2) 1
          rw [scanFnEnc_step_esc _ _ _ hc, hc2]
          cases hzt : zTable c2 with
          | none => rfl
          | some d =>
            rw [hzt] at hdec
            have hdec2 : zDecodeField tl2 = none := by
              cases hx : zDecodeField tl2 with
              | none => rfl
              | some dec' => rw [hx] at hdec; simp at hdec
            have hre : pre ++ ('Z' :: c2 :: tl2) = (pre ++ ['Z', c2]) ++ tl2 := by simp
            have hlen : pre.length + 2 = (pre ++ ['Z', c2]).length := by simp
            rw [hre, hlen]
            exact ih tl2 (pre ++ ['Z', c2])
              (by simp at hfuel ⊢; omega)
              (by intro hmem; exact h0 (by simp [hmem]))
              hdec2
      · rw [zDecodeField_cons_ne c tl hcz] at hdec
        have hdec2 : zDecodeField tl = none := by
          cases hx : zDecodeField tl with
          | none => rfl
          | some dec' => rw [hx] at hdec; simp at hdec
        have hc : getC (pre ++ (c :: tl)) pre.length = c := by
          simpa using getC_append pre (c :: tl) 0
        have hcn : ¬ (c = '\x00') := fun h => h0 (by simp [h])
        rw [scanFnEnc_step_lit _ _ _ c hc hcn hcz]
        have hre : pre ++ (c :: tl) = (pre ++ [c]) ++ tl := by simp
        have hlen : pre.length + 1 = (pre ++ [c]).length := by simp
        rw [hre, hlen]
        exact ih tl (pre ++ [c])
          (by simp at hfuel ⊢; omega)
          (fun hmem => h0 (by simp [hmem]))
          hdec2


theorem takeWhile_len_le (p : Char → Bool) (l : List Char) :
    (l.takeWhile p).length ≤ l.length := by
  induction l with
  | nil => simp
  | cons c t ih =>
    by_cases h : p c
    · simp [List.takeWhile_cons, h]; omega
    · simp [List.takeWhile_cons, h]

theorem scanSoname_emit_le (fuel : Nat) (sym : List Char) (i : Nat) :
    (scanSoname sym fuel i).emit.length ≤ sym.length - i := by
  induction fuel generalizing i with
  | zero => exact Nat.zero_le _
  | succ fuel ih =>
    by_cases h1 : getC sym i = '_'
    · rw [scanSoname_step_delim _ _ _ h1]; exact Nat.zero_le _
    · by_cases h2 : getC sym i = '\x00'
      · rw [scanSoname_step_nul _ _ _ h2]; exact Nat.zero_le _
      · have hi : i < sym.length := lt_of_getC_ne_nul sym i h2
        by_cases h3 : getC sym i = 'Z'
        · rw [scanSoname_step_esc _ _ _ h3]
          cases hzt : zTable (getC sym (i + 1)) with
          | none => exact Nat.zero_le _
          | some d =>
            have hr := ih (i + 2)
            show ((scanSoname sym fuel (i + 2)).emit.length + 1) ≤ sym.length - i
            omega
        · rw [scanSoname_step_lit _ _ _ _ rfl h1 h2 h3]
          have hr := ih (i + 1)
          show ((scanSoname sym fuel (i + 1)).emit.length + 1) ≤ sym.length - i
          omega

theorem scanFnEnc_emit_le (fuel : Nat) (sym : List Char) (i : Nat) :
    (scanFnEnc sym fuel i).emit.length ≤ sym.length - i := by
  induction fuel generalizing i with
  | zero => exact Nat.zero_le _
  | succ fuel ih =>
    by_cases h2 : getC sym i = '\x00'
    · rw [scanFnEnc_step_nul _ _ _ h2]; exact Nat.zero_le _
    · have hi : i < sym.length := lt_of_getC_ne_nul sym i h2
      by_cases h3 : getC sym i = 'Z'
      · rw [scanFnEnc_step_esc _ _ _ h3]
        cases hzt : zTable (getC sym (i + 1)) with
        | none => exact Nat.zero_le _
        | some d =>
          have hr := ih (i + 2)
          show ((scanFnEnc sym fuel (i + 2)).emit.length + 1) ≤ sym.length - i
          omega
      · rw [scanFnEnc_step_lit _ _ _ _ rfl h2 h3]
        have hr := ih (i + 1)
        show ((scanFnEnc sym fuel (i + 1)).emit.length + 1) ≤ sym.length - i
        omega

theorem scanFnPlain_le (sym : List Char) (i : Nat) :
    (scanFnPlain sym i).length ≤ sym.length - i := by
  have h1 := takeWhile_len_le (fun c => c ≠ '\x00') (sym.drop i)
  simpa [scanFnPlain] using h1


theorem maybe_Z_len_le (sym : List Char) (w x y z : Bool) :
    (maybe_Z_demangle sym w x y z).so.length ≤ sym.length ∧
    (maybe_Z_demangle sym w x y z).fn.length ≤ sym.length := by
  have h12 := scanSoname_emit_le (sym.length + 1) sym 12
  have hfe := scanFnEnc_emit_le (sym.length + 1) sym
    ((scanSoname sym (sym.length + 1) 12).idx + 1)
  have hfp := scanFnPlain_le sym ((scanSoname sym (sym.length + 1) 12).idx + 1)
  simp only [maybe_Z_demangle]
  split_ifs <;>
    refine ⟨?_, ?_⟩ <;>
    simp only [List.length_nil, Nat.zero_le, apply_ite List.length] <;>
    (try split_ifs) <;>
    (try simp only [List.length_nil]) <;>
    omega


theorem getC_zero (c : Char) (l : List Char) : getC (c :: l) 0 = c := rfl

theorem getC_succ (c : Char) (l : List Char) (n : Nat) : getC (c :: l) (n + 1) = getC l n := rfl

theorem takeWhile_eq_self (p : Char → Bool) (l : List Char) (h : ∀ c ∈ l, p c = true) :
    l.takeWhile p = l := by
  induction l with
  | nil => rfl
  | cons c t ih =>
    rw [List.takeWhile_cons, if_pos (h c (by simp))]
    rw [ih (fun c hc => h c (by simp [hc]))]

theorem getC_VGZ_take5 (l : List Char) :
    (((getC l 0 == 'V') && (getC l 1 == 'G') && (getC l 2 == '_')
      && (getC l 3 == 'Z') && (getC l 4 == '_')) = true)
    ↔ l.take 5 = ['V', 'G', '_', 'Z', '_'] := by
  rcases l with _ | ⟨a, _ | ⟨b, _ | ⟨c, _ | ⟨d, _ | ⟨e, t⟩⟩⟩⟩⟩ <;>
    simp [getC_succ, getC_zero, getC_nil] <;> tauto


/-- C1: for every input matching the Z-encoding grammar (fixed header
`_vg` + (`r`|`w`) + 5 digits + `Z` + (`Z`|`U`) + `_`, then an escaped soname
field, `_`, and a fnname field), amended by the two exclusions the code
enforces — the tag digits must not be `0000` with a non-zero priority digit,
and bytes 12..16 must not be the literal `VG_Z_` — VG_(maybe_Z_demangle)
returns True with is_wrap true exactly when the 4th byte is `w`, eclass_tag
the first four digits as a decimal number, eclass_prio the fifth digit, the
soname decoded by the escape table, and the fnname decoded by the table when
the 11th byte is `Z` or copied verbatim when it is `U`; an unknown escape
selector in either field makes it return False. -/
theorem C1_maybe_Z_demangle_grammar
    (rw d1 d2 d3 d4 d5 sel : Char) (soEnc fnPart soDec fnDec : List Char)
    (hrw : rw = 'r' ∨ rw = 'w')
    (hd1 : isDigitCh d1 = true) (hd2 : isDigitCh d2 = true) (hd3 : isDigitCh d3 = true)
    (hd4 : isDigitCh d4 = true) (hd5 : isDigitCh d5 = true)
    (hsel : sel = 'Z' ∨ sel = 'U')
    (hcons : ¬ (d1 = '0' ∧ d2 = '0' ∧ d3 = '0' ∧ d4 = '0' ∧ ¬ (d5 = '0')))
    (hVG : (soEnc ++ '_' :: fnPart).take 5 ≠ ['V', 'G', '_', 'Z', '_'])
    (hso0 : '\x00' ∉ soEnc) (hsoU : '_' ∉ soEnc)
    (hfn0 : '\x00' ∉ fnPart) :
    (zDecodeField soEnc = some soDec →
      ((sel = 'Z' ∧ zDecodeField fnPart = some fnDec) ∨ (sel = 'U' ∧ fnDec = fnPart)) →
      maybe_Z_demangle (zAssemble rw d1 d2 d3 d4 d5 sel soEnc fnPart) true true true true
        = { res := .ok, so := soDec, fn := fnDec,
            isWrap := some (rw == 'w'),
            eclassTag := some (1000 * digitVal d1 + 100 * digitVal d2
              + 10 * digitVal d3 + digitVal d4),
            eclassPrio := some (digitVal d5) })
    ∧ (zDecodeField soEnc = none →
      (maybe_Z_demangle (zAssemble rw d1 d2 d3 d4 d5 sel soEnc fnPart)
        true true true true).res = .fail)
    ∧ (sel = 'Z' → zDecodeField soEnc = some soDec → zDecodeField fnPart = none →
      (maybe_Z_demangle (zAssemble rw d1 d2 d3 d4 d5 sel soEnc fnPart)
        true true true true).res = .fail) := by
  set sym := zAssemble rw d1 d2 d3 d4 d5 sel soEnc fnPart with hsym
  have e0 : getC sym 0 = '_' := rfl
  have e1 : getC sym 1 = 'v' := rfl
  have e2 : getC sym 2 = 'g' := rfl
  have e3 : getC sym 3 = rw := rfl
  have e4 : getC sym 4 = d1 := rfl
  have e5 : getC sym 5 = d2 := rfl
  have e6 : getC sym 6 = d3 := rfl
  have e7 : getC sym 7 = d4 := rfl
  have e8 : getC sym 8 = d5 := rfl
  have e9 : getC sym 9 = 'Z' := rfl
  have e10 : getC sym 10 = sel := rfl
  have e11 : getC sym 11 = '_' := rfl
  have hbase : zValidBase sym = true := by
    simp only [zValidBase, e0, e1, e2, e3, e4, e5, e6, e7, e8, e9, e10, e11,
      hd1, hd2, hd3, hd4, hd5]
    rcases hrw with rfl | rfl <;> rcases hsel with rfl | rfl <;> decide
  have htv : zTagViol sym = false := by
    simp only [zTagViol, e4, e5, e6, e7, e8]
    by_contra hcon
    rw [Bool.not_eq_false] at hcon
    simp only [Bool.and_eq_true, beq_iff_eq, bne_iff_ne, ne_eq] at hcon
    exact hcons ⟨hcon.1.1.1.1, hcon.1.1.1.2, hcon.1.1.2, hcon.1.2, hcon.2⟩
  have hraw : rawVGZ sym = false := by
    have hrid : rawVGZ sym =
        ((getC (soEnc ++ '_' :: fnPart) 0 == 'V') && (getC (soEnc ++ '_' :: fnPart) 1 == 'G')
          && (getC (soEnc ++ '_' :: fnPart) 2 == '_') && (getC (soEnc ++ '_' :: fnPart) 3 == 'Z')
          && (getC (soEnc ++ '_' :: fnPart) 4 == '_')) := rfl
    rw [hrid]
    by_contra hcon
    rw [Bool.not_eq_false] at hcon
    exact hVG ((getC_VGZ_take5 _).mp hcon)
  have hsymlist : sym = ['_', 'v', 'g', rw, d1, d2, d3, d4, d5, 'Z', sel, '_']
      ++ (soEnc ++ '_' :: fnPart) := rfl
  have hfuel : soEnc.length + 1 ≤ sym.length + 1 := by
    rw [hsymlist]; simp; omega
  have h12is : (12 : Nat) = (['_', 'v', 'g', rw, d1, d2, d3, d4, d5, 'Z', sel, '_']
      : List Char).length := rfl
  refine ⟨?_, ?_, ?_⟩
  · intro hsoD hfnD
    have hscan : scanSoname sym (sym.length + 1) 12 = ⟨soDec, 12 + soEnc.length, false⟩ := by
      rw [hsymlist, h12is]
      exact scanSoname_ok (sym.length + 1) soEnc soDec fnPart _ hfuel hso0 hsoU hsoD
    simp only [maybe_Z_demangle, hbase, htv, hraw, Bool.not_false, Bool.and_true,
      Bool.not_true, hscan, if_true, if_false, e3, e4, e5, e6, e7, e8, e10]
    norm_num
    rcases hfnD with ⟨hselZ, hfnZ⟩ | ⟨hselU, hfnU⟩
    · subst hselZ
      have hfuel2 : fnPart.length + 1 ≤ sym.length + 1 := by
        rw [hsymlist]; simp; omega
      have hkey := scanFnEnc_ok (sym.length + 1) fnPart fnDec
        ((['_', 'v', 'g', rw, d1, d2, d3, d4, d5, 'Z', 'Z', '_'] ++ soEnc) ++ ['_'])
        hfuel2 hfn0 hfnZ
      have hPsym : ((['_', 'v', 'g', rw, d1, d2, d3, d4, d5, 'Z', 'Z', '_'] ++ soEnc) ++ ['_'])
          ++ fnPart = sym := by
        rw [hsymlist]; simp
      have hPlen : ((['_', 'v', 'g', rw, d1, d2, d3, d4, d5, 'Z', 'Z', '_'] ++ soEnc)
          ++ ['_']).length = 12 + soEnc.length + 1 := by
        simp; omega
      rw [hPsym, hPlen] at hkey
      simp [hkey]
    · subst hselU
      have hUZ : ('U' == 'Z') = false := by decide
      have hPsym : ((['_', 'v', 'g', rw, d1, d2, d3, d4, d5, 'Z', 'U', '_'] ++ soEnc) ++ ['_'])
          ++ fnPart = sym := by
        rw [hsymlist]; simp
      have hPlen : ((['_', 'v', 'g', rw, d1, d2, d3, d4, d5, 'Z', 'U', '_'] ++ soEnc)
          ++ ['_']).length = 12 + soEnc.length + 1 := by
        simp; omega
      have hplain : scanFnPlain sym (12 + soEnc.length + 1) = fnPart := by
        rw [scanFnPlain, ← hPlen, ← hPsym, List.drop_left]
        refine takeWhile_eq_self _ _ (fun c hc => ?_)
        have hcn : ¬ (c = '\x00') := fun hcc => hfn0 (hcc ▸ hc)
        simpa using hcn
      rw [hfnU]
      simp [hUZ, hplain]
  · intro hnone
    have herr : (scanSoname sym (sym.length + 1) 12).err = true := by
      rw [hsymlist, h12is]
      exact scanSoname_err (sym.length + 1) soEnc fnPart _ hfuel hso0 hsoU hnone
    simp only [maybe_Z_demangle, hbase, htv, hraw, Bool.not_false, Bool.and_true,
      Bool.not_true, herr, if_true, if_false]
    norm_num [herr]
  · intro hselZ hsoD hfnN
    subst hselZ
    have hscan : scanSoname sym (sym.length + 1) 12 = ⟨soDec, 12 + soEnc.length, false⟩ := by
      rw [hsymlist, h12is]
      exact scanSoname_ok (sym.length + 1) soEnc soDec fnPart _ hfuel hso0 hsoU hsoD
    have hfuel2 : fnPart.length + 1 ≤ sym.length + 1 := by
      rw [hsymlist]; simp; omega
    have hkey := scanFnEnc_err (sym.length + 1) fnPart
      ((['_', 'v', 'g', rw, d1, d2, d3, d4, d5, 'Z', 'Z', '_'] ++ soEnc) ++ ['_'])
      hfuel2 hfn0 hfnN
    have hPsym : ((['_', 'v', 'g', rw, d1, d2, d3, d4, d5, 'Z', 'Z', '_'] ++ soEnc) ++ ['_'])
        ++ fnPart = sym := by
      rw [hsymlist]; simp
    have hPlen : ((['_', 'v', 'g', rw, d1, d2, d3, d4, d5, 'Z', 'Z', '_'] ++ soEnc)
        ++ ['_']).length = 12 + soEnc.length + 1 := by
      simp; omega
    rw [hPsym, hPlen] at hkey
    simp only [maybe_Z_demangle, hbase, htv, hraw, Bool.not_false, Bool.and_true,
      Bool.not_true, hscan, if_true, if_false, e10]
    norm_num [hkey]


theorem zValidBase_eq_specHdrMatch (sym : List Char) :
    zValidBase sym = specHdrMatch sym := by
  rcases sym with _ | ⟨c0, _ | ⟨c1, _ | ⟨c2, _ | ⟨c3, _ | ⟨c4, _ | ⟨c5, _ | ⟨c6, _ | ⟨c7,
    _ | ⟨c8, _ | ⟨c9, _ | ⟨c10, _ | ⟨c11, t⟩⟩⟩⟩⟩⟩⟩⟩⟩⟩⟩⟩ <;>
    simp [zValidBase, specHdrMatch, getC_succ, getC_zero, getC_nil, isDigitCh]


/-- C6: header validation is strict — if the first 12 bytes deviate from the
fixed grammar template, or the tag digits are `0000` with a non-zero priority
digit, VG_(maybe_Z_demangle) returns False regardless of the rest of the
input. -/
theorem C6_header_strict (sym : List Char) (w x y z : Bool)
    (h : specHdrMatch sym = false ∨ zTagViol sym = true) :
    (maybe_Z_demangle sym w x y z).res = .fail := by
  have hval : (zValidBase sym && !zTagViol sym) = false := by
    rcases h with h | h
    · rw [zValidBase_eq_specHdrMatch, h]; simp
    · rw [h]; simp
  simp [maybe_Z_demangle, hval]

/-- C6 witness: a header with tag digits `0000` and priority digit `5` is
rejected even though the rest of the encoding is well formed. -/
theorem C6_witness :
    (specHdrMatch "_vgw00005ZU_x_y".toList = true ∧ zTagViol "_vgw00005ZU_x_y".toList = true)
    ∧ (maybe_Z_demangle "_vgw00005ZU_x_y".toList false false false false).res = .fail :=
  ⟨by decide, C6_header_strict "_vgw00005ZU_x_y".toList false false false false
    (Or.inr (by decide))⟩

/-- C3 as stated is false: the code's forbidden-prefix check looks at the raw
bytes 12..16, not at the decoded soname, so a soname field that Z-decodes to
a `VG_Z_`-prefixed string through escapes is decoded normally and the call
returns True — the fatal assertion is not triggered. -/
theorem C3_counterexample :
    zDecodeField "VGZuZZZu".toList = some "VG_Z_".toList
    ∧ (maybe_Z_demangle "_vgr00000ZZ_VGZuZZZu_f".toList true true true true)
      = { res := .ok, so := "VG_Z_".toList, fn := "f".toList,
          isWrap := some false, eclassTag := some 0, eclassPrio := some 0 } := by
  constructor
  · decide
  · decide

/-- C3 amended: VG_(maybe_Z_demangle) hits the fatal ForbiddenPrefix
assertion exactly on inputs whose header is valid and whose raw bytes 12..16
are literally `VG_Z_`; for those it never returns an ordinary False. -/
theorem C3_forbidden_prefix_raw (sym : List Char) (w x y z : Bool) :
    (maybe_Z_demangle sym w x y z).res = .fatal
    ↔ (zValidBase sym && !zTagViol sym && rawVGZ sym) = true := by
  simp only [maybe_Z_demangle]
  split_ifs <;> simp_all <;> (intros; simp_all)


/-- C1 counterexample: this input matches the claim's grammar — header
`_vg` + `r` + the 5 decimal digits `00005` + `Z` + `U` + `_`, soname field
`lib` (trivially escaped), delimiter, verbatim fnname `fn` — so the claim as
stated requires a True result with eclass_tag 0 and eclass_prio 5, but
VG_(maybe_Z_demangle) returns False and writes nothing, because the tag
digits are `0000` while the priority digit is non-zero. -/
theorem C1_counterexample :
    "_vgr00005ZU_lib_fn".toList
      = zAssemble 'r' '0' '0' '0' '0' '5' 'U' "lib".toList "fn".toList
    ∧ zDecodeField "lib".toList = some "lib".toList
    ∧ (maybe_Z_demangle "_vgr00005ZU_lib_fn".toList true true true true)
      = { res := .fail, so := [], fn := [], isWrap := none,
          eclassTag := none, eclassPrio := none } := by
  refine ⟨by decide, by decide, by decide⟩

/-- C1 witness: the grammar theorem evaluated on a concrete well-formed
redirect specifier. -/
theorem C1_witness :
    maybe_Z_demangle (zAssemble 'r' '1' '2' '3' '4' '5' 'Z'
        "libcZdso".toList "malloc".toList) true true true true
      = { res := .ok, so := "libc.so".toList, fn := "malloc".toList,
          isWrap := some false, eclassTag := some 1234, eclassPrio := some 5 } := by
  have h := C1_maybe_Z_demangle_grammar 'r' '1' '2' '3' '4' '5' 'Z'
    "libcZdso".toList "malloc".toList "libc.so".toList "malloc".toList
    (by decide) (by decide) (by decide) (by decide) (by decide) (by decide)
    (by decide) (by decide) (by decide) (by decide) (by decide) (by decide)
  exact (h.1 (by decide) (Or.inl ⟨rfl, by decide⟩)).trans (by decide)

/-- C8 as stated is false: on a failure caused by the unknown escape selector
`x` in the fnname field, the isWrap, eclassTag and eclassPrio outputs have
already been written with the decoded header values and the fnname buffer
holds the partially decoded prefix `foo`. -/
theorem C8_counterexample :
    (maybe_Z_demangle "_vgr12345ZZ_lib_fooZx".toList true true true true)
      = { res := .fail, so := "lib".toList, fn := "foo".toList,
          isWrap := some false, eclassTag := some 1234, eclassPrio := some 5 } := by
  decide

/-- C8 amended: VG_(maybe_Z_demangle) writes nothing through its output
pointers when the header check fails, but once the header is valid the
isWrap/eclassTag/eclassPrio outputs are written (with the decoded header
values) before any scanning, so a later failure — such as an unknown escape
selector — leaves them, and possibly a partially decoded soname or fnname,
exposed; only the False return value signals the failure. -/
theorem C8_outputs_on_failure (sym : List Char) (w x y z : Bool) :
    ((zValidBase sym && !zTagViol sym) = false →
      maybe_Z_demangle sym w x y z
        = { res := .fail, so := [], fn := [], isWrap := none,
            eclassTag := none, eclassPrio := none })
    ∧ ((zValidBase sym && !zTagViol sym) = true →
      (maybe_Z_demangle sym w x y z).isWrap
          = (if x then some (getC sym 3 == 'w') else none)
      ∧ (maybe_Z_demangle sym w x y z).eclassTag
          = (if y then some (1000 * digitVal (getC sym 4) + 100 * digitVal (getC sym 5)
              + 10 * digitVal (getC sym 6) + 1 * digitVal (getC sym 7)) else none)
      ∧ (maybe_Z_demangle sym w x y z).eclassPrio
          = (if z then some (digitVal (getC sym 8)) else none)) := by
  constructor
  · intro hval
    simp [maybe_Z_demangle, hval]
  · intro hval
    simp only [maybe_Z_demangle, hval]
    split_ifs <;> simp_all


/-- C8 witness: the characterization evaluated on a bad-header input (nothing
written) and on a valid-header input (metadata written). -/
theorem C8_witness :
    maybe_Z_demangle "_vgq11111ZZ_s_t".toList true true true true
      = { res := .fail, so := [], fn := [], isWrap := none,
          eclassTag := none, eclassPrio := none }
    ∧ (maybe_Z_demangle "_vgw22222ZZ_s_t".toList true true true true).isWrap = some true := by
  constructor
  · exact (C8_outputs_on_failure "_vgq11111ZZ_s_t".toList true true true true).1 (by decide)
  · exact ((C8_outputs_on_failure "_vgw22222ZZ_s_t".toList true true true true).2
      (by decide)).1.trans (by decide)


theorem mem_rustTokens_elim (tok : List Char) (htok : tok ∈ rustTokens) :
    tok = ['$', 'C', '$'] ∨ tok = ['$', 'S', 'P', '$'] ∨ tok = ['$', 'B', 'P', '$'] ∨ tok = ['$', 'R', 'F', '$'] ∨ tok = ['$', 'L', 'T', '$'] ∨ tok = ['$', 'G', 'T', '$'] ∨ tok = ['$', 'L', 'P', '$'] ∨ tok = ['$', 'R', 'P', '$'] ∨ tok = ['$', 'u', '2', '0', '$'] ∨ tok = ['$', 'u', '2', '2', '$'] ∨ tok = ['$', 'u', '2', '7', '$'] ∨ tok = ['$', 'u', '2', 'b', '$'] ∨ tok = ['$', 'u', '3', 'b', '$'] ∨ tok = ['$', 'u', '5', 'b', '$'] ∨ tok = ['$', 'u', '5', 'd', '$'] ∨ tok = ['$', 'u', '7', 'b', '$'] ∨ tok = ['$', 'u', '7', 'd', '$'] ∨ tok = ['$', 'u', '7', 'e', '$'] := by
  cases htok with
  | head => exact Or.inl rfl
  | tail _ htok =>
    cases htok with
    | head => exact Or.inr (Or.inl rfl)
    | tail _ htok =>
      cases htok with
      | head => exact Or.inr (Or.inr (Or.inl rfl))
      | tail _ htok =>
        cases htok with
        | head => exact Or.inr (Or.inr (Or.inr (Or.inl rfl)))
        | tail _ htok =>
          cases htok with
          | head => exact Or.inr (Or.inr (Or.inr (Or.inr (Or.inl rfl))))
          | tail _ htok =>
            cases htok with
            | head => exact Or.inr (Or.inr (Or.inr (Or.inr (Or.inr (Or.inl rfl)))))
            | tail _ htok =>
              cases htok with
              | head => exact Or.inr (Or.inr (Or.inr (Or.inr (Or.inr (Or.inr (Or.inl rfl))))))
              | tail _ htok =>
                cases htok with
                | head => exact Or.inr (Or.inr (Or.inr (Or.inr (Or.inr (Or.inr (Or.inr (Or.inl rfl)))))))
                | tail _ htok =>
                  cases htok with
                  | head => exact Or.inr (Or.inr (Or.inr (Or.inr (Or.inr (Or.inr (Or.inr (Or.inr (Or.inl rfl))))))))
                  | tail _ htok =>
                    cases htok with
                    | head => exact Or.inr (Or.inr (Or.inr (Or.inr (Or.inr (Or.inr (Or.inr (Or.inr (Or.inr (Or.inl rfl)))))))))
                    | tail _ htok =>
                      cases htok with
                      | head => exact Or.inr (Or.inr (Or.inr (Or.inr (Or.inr (Or.inr (Or.inr (Or.inr (Or.inr (Or.inr (Or.inl rfl))))))))))
                      | tail _ htok =>
                        cases htok with
                        | head => exact Or.inr (Or.inr (Or.inr (Or.inr (Or.inr (Or.inr (Or.inr (Or.inr (Or.inr (Or.inr (Or.inr (Or.inl rfl)))))))))))
                        | tail _ htok =>
                          cases htok with
                          | head => exact Or.inr (Or.inr (Or.inr (Or.inr (Or.inr (Or.inr (Or.inr (Or.inr (Or.inr (Or.inr (Or.inr (Or.inr (Or.inl rfl))))))))))))
                          | tail _ htok =>
                            cases htok with
                            | head => exact Or.inr (Or.inr (Or.inr (Or.inr (Or.inr (Or.inr (Or.inr (Or.inr (Or.inr (Or.inr (Or.inr (Or.inr (Or.inr (Or.inl rfl)))))))))))))
                            | tail _ htok =>
                              cases htok with
                              | head => exact Or.inr (Or.inr (Or.inr (Or.inr (Or.inr (Or.inr (Or.inr (Or.inr (Or.inr (Or.inr (Or.inr (Or.inr (Or.inr (Or.inr (Or.inl rfl))))))))))))))
                              | tail _ htok =>
                                cases htok with
                                | head => exact Or.inr (Or.inr (Or.inr (Or.inr (Or.inr (Or.inr (Or.inr (Or.inr (Or.inr (Or.inr (Or.inr (Or.inr (Or.inr (Or.inr (Or.inr (Or.inl rfl)))))))))))))))
                                | tail _ htok =>
                                  cases htok with
                                  | head => exact Or.inr (Or.inr (Or.inr (Or.inr (Or.inr (Or.inr (Or.inr (Or.inr (Or.inr (Or.inr (Or.inr (Or.inr (Or.inr (Or.inr (Or.inr (Or.inr (Or.inl rfl))))))))))))))))
                                  | tail _ htok =>
                                    cases htok with
                                    | head => exact Or.inr (Or.inr (Or.inr (Or.inr (Or.inr (Or.inr (Or.inr (Or.inr (Or.inr (Or.inr (Or.inr (Or.inr (Or.inr (Or.inr (Or.inr (Or.inr (Or.inr (rfl)))))))))))))))))
                                    | tail _ htok =>
                                      cases htok

theorem lrTokens_eq_rustTokens : lrTokens = rustTokens := rfl

theorem rustPairs_fst : rustPairs.map Prod.fst = rustTokens := rfl

theorem rustTokens_no_dot : ∀ tok ∈ rustTokens, '.' ∉ tok := by decide

theorem rustTokens_len : ∀ tok ∈ rustTokens, 3 ≤ tok.length := by decide

theorem lrToken_spec (l r : List Char) (h : lrToken l = some r) :
    ∃ tok, tok ∈ rustTokens ∧ l = tok ++ r := by
  unfold lrToken at h
  cases hf : lrTokens.find? (fun tok => tok.isPrefixOf l) with
  | none => rw [hf] at h; cases h
  | some tok =>
    rw [hf] at h
    obtain rfl : l.drop tok.length = r := Option.some.inj h
    have hmem := List.mem_of_find?_eq_some hf
    have hpre := List.find?_some hf
    simp only [List.isPrefixOf_iff_prefix] at hpre
    obtain ⟨t, rfl⟩ := hpre
    rw [lrTokens_eq_rustTokens] at hmem
    exact ⟨tok, hmem, by rw [List.drop_left]⟩

theorem rustPairs_val : ∀ p ∈ rustPairs, ¬ (p.2 = '?') := by decide

theorem rustUnescape_spec (l : List Char) (v : Char) (r : List Char)
    (h : rustUnescape l = some (v, r)) :
    ∃ tok, tok ∈ rustTokens ∧ l = tok ++ r ∧ ¬ (v = '?') := by
  unfold rustUnescape at h
  cases hf : rustPairs.find? (fun p => p.1.isPrefixOf l) with
  | none => rw [hf] at h; cases h
  | some p =>
    rw [hf] at h
    obtain ⟨hv, hr⟩ : p.2 = v ∧ l.drop p.1.length = r := by
      rw [Option.map, Option.some.injEq, Prod.mk.injEq] at h
      exact h
    have hmem := List.mem_of_find?_eq_some hf
    have hpre := List.find?_some hf
    simp only [List.isPrefixOf_iff_prefix] at hpre
    obtain ⟨t, hl⟩ := hpre
    have hmem1 : p.1 ∈ rustTokens := by
      rw [← rustPairs_fst]
      exact List.mem_map_of_mem Prod.fst hmem
    have hvq : ¬ (p.2 = '?') := rustPairs_val p hmem
    refine ⟨p.1, hmem1, ?_, by rw [← hv]; exact hvq⟩
    rw [← hr, ← hl, List.drop_left]

theorem lrToken_tok (tok r : List Char) (htok : tok ∈ rustTokens) :
    lrToken (tok ++ r) = some r := by
  rcases mem_rustTokens_elim tok htok with rfl | rfl | rfl | rfl | rfl | rfl | rfl | rfl | rfl | rfl | rfl | rfl | rfl | rfl | rfl | rfl | rfl | rfl <;>
    simp [lrToken, lrTokens, List.find?, List.isPrefixOf]

theorem rustUnescape_tok (tok r : List Char) (htok : tok ∈ rustTokens) :
    ∃ v, rustUnescape (tok ++ r) = some (v, r) ∧ ¬ (v = '?') := by
  rcases mem_rustTokens_elim tok htok with rfl | rfl | rfl | rfl | rfl | rfl | rfl | rfl | rfl | rfl | rfl | rfl | rfl | rfl | rfl | rfl | rfl | rfl
  · exact ⟨',', by simp [rustUnescape, rustPairs, List.find?, List.isPrefixOf], by decide⟩
  · exact ⟨'@', by simp [rustUnescape, rustPairs, List.find?, List.isPrefixOf], by decide⟩
  · exact ⟨'*', by simp [rustUnescape, rustPairs, List.find?, List.isPrefixOf], by decide⟩
  · exact ⟨'&', by simp [rustUnescape, rustPairs, List.find?, List.isPrefixOf], by decide⟩
  · exact ⟨'<', by simp [rustUnescape, rustPairs, List.find?, List.isPrefixOf], by decide⟩
  · exact ⟨'>', by simp [rustUnescape, rustPairs, List.find?, List.isPrefixOf], by decide⟩
  · exact ⟨'(', by simp [rustUnescape, rustPairs, List.find?, List.isPrefixOf], by decide⟩
  · exact ⟨')', by simp [rustUnescape, rustPairs, List.find?, List.isPrefixOf], by decide⟩
  · exact ⟨' ', by simp [rustUnescape, rustPairs, List.find?, List.isPrefixOf], by decide⟩
  · exact ⟨Char.ofNat 34, by simp [rustUnescape, rustPairs, List.find?, List.isPrefixOf], by decide⟩
  · exact ⟨Char.ofNat 39, by simp [rustUnescape, rustPairs, List.find?, List.isPrefixOf], by decide⟩
  · exact ⟨'+', by simp [rustUnescape, rustPairs, List.find?, List.isPrefixOf], by decide⟩
  · exact ⟨';', by simp [rustUnescape, rustPairs, List.find?, List.isPrefixOf], by decide⟩
  · exact ⟨'[', by simp [rustUnescape, rustPairs, List.find?, List.isPrefixOf], by decide⟩
  · exact ⟨']', by simp [rustUnescape, rustPairs, List.find?, List.isPrefixOf], by decide⟩
  · exact ⟨'\x7b', by simp [rustUnescape, rustPairs, List.find?, List.isPrefixOf], by decide⟩
  · exact ⟨'\x7d', by simp [rustUnescape, rustPairs, List.find?, List.isPrefixOf], by decide⟩
  · exact ⟨'~', by simp [rustUnescape, rustPairs, List.find?, List.isPrefixOf], by decide⟩

theorem rustScan_nil (fuel : Nat) (prev : Option Char) :
    rustScan fuel prev [] = ⟨[], false⟩ := by
  cases fuel <;> rfl
theorem rustScan_step_tok_some (fuel : Nat) (prev : Option Char) (rest : List Char)
    (v : Char) (r : List Char) (hsome : rustUnescape ('$' :: rest) = some (v, r)) :
    rustScan (fuel + 1) prev ('$' :: rest) =
      ⟨v :: (rustScan fuel (some '$') r).out, (rustScan fuel (some '$') r).failed⟩ := by
  conv_lhs => unfold rustScan
  rw [if_pos rfl, hsome]
  rfl
theorem rustScan_step_tok_none (fuel : Nat) (prev : Option Char) (rest : List Char)
    (hnone : rustUnescape ('$' :: rest) = none) :
    rustScan (fuel + 1) prev ('$' :: rest) = ⟨['?'], true⟩ := by
  conv_lhs => unfold rustScan
  rw [if_pos rfl, hnone]
  rfl
theorem rustScan_step_us (fuel : Nat) (prev : Option Char) (rest : List Char) :
    rustScan (fuel + 1) prev ('_' :: rest) =
      (if (prev = none ∨ prev = some ':') ∧ rest.headD ':' = '$' then
        rustScan fuel (some '_') rest
      else
        ⟨'_' :: (rustScan fuel (some '_') rest).out, (rustScan fuel (some '_') rest).failed⟩) := by
  conv_lhs => unfold rustScan
  rw [if_neg (by decide : ¬ (('_' : Char) = '$')), if_pos rfl]
theorem rustScan_step_dotdot (fuel : Nat) (prev : Option Char) (rest2 : List Char) :
    rustScan (fuel + 1) prev ('.' :: '.' :: rest2) =
      ⟨':' :: ':' :: (rustScan fuel (some '.') rest2).out,
       (rustScan fuel (some '.') rest2).failed⟩ := by
  conv_lhs => unfold rustScan
  rw [if_neg (by decide : ¬ (('.' : Char) = '$')), if_neg (by decide : ¬ (('.' : Char) = '_')),
    if_pos rfl, if_pos (by rfl : (('.' :: rest2).headD ':') = '.')]
  rfl
theorem rustScan_step_dot1 (fuel : Nat) (prev : Option Char) (rest : List Char)
    (h : ¬ (rest.headD ':' = '.')) :
    rustScan (fuel + 1) prev ('.' :: rest) =
      ⟨'-' :: (rustScan fuel (some '.') rest).out, (rustScan fuel (some '.') rest).failed⟩ := by
  conv_lhs => unfold rustScan
  rw [if_neg (by decide : ¬ (('.' : Char) = '$')), if_neg (by decide : ¬ (('.' : Char) = '_')),
    if_pos rfl, if_neg h]
theorem rustScan_step_copy (fuel : Nat) (prev : Option Char) (c : Char) (rest : List Char)
    (h1 : ¬ (c = '$')) (h2 : ¬ (c = '_')) (h3 : ¬ (c = '.'))
    (h4 : (isLetterDigit c || decide (c = ':')) = true) :
    rustScan (fuel + 1) prev (c :: rest) =
      ⟨c :: (rustScan fuel (some c) rest).out, (rustScan fuel (some c) rest).failed⟩ := by
  conv_lhs => unfold rustScan
  rw [if_neg h1, if_neg h2, if_neg h3, if_pos h4]
theorem rustScan_step_fail (fuel : Nat) (prev : Option Char) (c : Char) (rest : List Char)
    (h1 : ¬ (c = '$')) (h2 : ¬ (c = '_')) (h3 : ¬ (c = '.'))
    (h4 : (isLetterDigit c || decide (c = ':')) = false) :
    rustScan (fuel + 1) prev (c :: rest) = ⟨['?'], true⟩ := by
  conv_lhs => unfold rustScan
  rw [if_neg h1, if_neg h2, if_neg h3]
  rw [if_neg (by rw [h4]; exact Bool.false_ne_true)]

theorem hexVal_lt_16 (c : Char) (h : isLowerHex c = true) : hexVal c < 16 := by
  unfold isLowerHex at h
  unfold hexVal
  simp only [Bool.or_eq_true, Bool.and_eq_true, decide_eq_true_eq] at h
  have hle : ∀ a b : Char, a ≤ b → a.toNat ≤ b.toNat := by
    intro a b hab
    exact hab
  rcases h with ⟨h1, h2⟩ | ⟨h1, h2⟩
  · have n1 := hle _ _ h1
    have n2 := hle _ _ h2
    rw [if_pos (by simp [h1, h2])]
    simp [Char.toNat, UInt32.size] at n1 n2 ⊢
    omega
  · by_cases hd : (decide ('0' ≤ c) && decide (c ≤ '9')) = true
    · have n1 : ('0' : Char).toNat ≤ c.toNat := by
        simp only [Bool.and_eq_true, decide_eq_true_eq] at hd
        exact hle _ _ hd.1
      have n2 : c.toNat ≤ ('9' : Char).toNat := by
        simp only [Bool.and_eq_true, decide_eq_true_eq] at hd
        exact hle _ _ hd.2
      rw [if_pos hd]
      simp [Char.toNat, UInt32.size] at n1 n2 ⊢
      omega
    · have n1 := hle _ _ h1
      have n2 := hle _ _ h2
      rw [if_neg hd]
      simp [Char.toNat, UInt32.size] at n1 n2 ⊢
      omega



theorem looks_nil (fuel : Nat) : looks_like_rust fuel [] = true := by
  cases fuel <;> rfl

theorem looks_step_tok (fuel : Nat) (rest : List Char) :
    looks_like_rust (fuel + 1) ('$' :: rest) =
      (match lrToken ('$' :: rest) with
       | some r => looks_like_rust fuel r
       | none => false) := by
  conv_lhs => unfold looks_like_rust
  simp

theorem looks_step_dot (fuel : Nat) (rest : List Char) :
    looks_like_rust (fuel + 1) ('.' :: rest) =
      (if ('.' :: rest).take 3 = ['.', '.', '.'] then false
       else looks_like_rust fuel rest) := by
  conv_lhs => unfold looks_like_rust
  simp

theorem looks_step_other (fuel : Nat) (c : Char) (rest : List Char)
    (h1 : ¬ (c = '$')) (h2 : ¬ (c = '.')) :
    looks_like_rust (fuel + 1) (c :: rest) =
      (if (isLetterDigit c || decide (c = '_') || decide (c = ':')) = true
       then looks_like_rust fuel rest
       else false) := by
  conv_lhs => unfold looks_like_rust
  rw [if_neg h1, if_neg h2]


theorem rustScan_out_le (fuel : Nat) (prev : Option Char) (l : List Char) :
    (rustScan fuel prev l).out.length ≤ l.length := by
  induction fuel generalizing prev l with
  | zero =>
    match l with
    | [] => simp [rustScan_nil]
    | c :: rest => exact Nat.zero_le _
  | succ fuel ih =>
    match l with
    | [] => simp [rustScan_nil]
    | c :: rest =>
      by_cases h1 : c = '$'
      · subst h1
        cases hu : rustUnescape ('$' :: rest) with
        | none => rw [rustScan_step_tok_none fuel prev rest hu]; simp
        | some p =>
          obtain ⟨v, r⟩ := p
          rw [rustScan_step_tok_some fuel prev rest v r hu]
          obtain ⟨tok, htok, heq, hvq⟩ := rustUnescape_spec _ _ _ hu
          have hlen := rustTokens_len tok htok
          have hr : ('$' :: rest).length = tok.length + r.length := by
            rw [heq, List.length_append]
          have := ih (some '$') r
          simp only [List.length_cons] at hr ⊢
          omega
      · by_cases h2 : c = '_'
        · subst h2
          rw [rustScan_step_us]
          split_ifs with hdrop
          · have := ih (some '_') rest
            simp only [List.length_cons]
            omega
          · have := ih (some '_') rest
            simp only [List.length_cons]
            omega
        · by_cases h3 : c = '.'
          · subst h3
            by_cases hdd : rest.headD ':' = '.'
            · have hne : rest ≠ [] := by
                intro hcon; rw [hcon] at hdd; exact absurd hdd (by decide)
              obtain ⟨c2, rest2, rfl⟩ := List.exists_cons_of_ne_nil hne
              have hc2 : c2 = '.' := hdd
              subst hc2
              rw [rustScan_step_dotdot]
              have := ih (some '.') rest2
              simp only [List.length_cons]
              omega
            · rw [rustScan_step_dot1 fuel prev rest hdd]
              have := ih (some '.') rest
              simp only [List.length_cons]
              omega
          · by_cases h4 : (isLetterDigit c || decide (c = ':')) = true
            · rw [rustScan_step_copy fuel prev c rest h1 h2 h3 h4]
              have := ih (some c) rest
              simp only [List.length_cons]
              omega
            · rw [rustScan_step_fail fuel prev c rest h1 h2 h3
                (by rw [Bool.not_eq_true] at h4; exact h4)]
              simp


theorem hasTripleDot_cons_ne (c : Char) (rest : List Char) (h : ¬ (c = '.')) :
    hasTripleDot (c :: rest) = hasTripleDot rest := by
  match rest with
  | [] => rfl
  | [x] => rfl
  | x :: y :: t =>
    conv_lhs => unfold hasTripleDot
    have hb : (c == '.') = false := by
      cases hx : c == '.'
      · rfl
      · exact absurd (by simpa using hx) h
    rw [hb]
    simp

theorem hasTripleDot_cons_false (c : Char) (rest : List Char)
    (h : hasTripleDot (c :: rest) = false) : hasTripleDot rest = false := by
  match rest with
  | [] => rfl
  | [x] => rfl
  | x :: y :: t =>
    rw [show hasTripleDot (c :: x :: y :: t)
        = (((c == '.') && (x == '.') && (y == '.')) || hasTripleDot (x :: y :: t)) from rfl] at h
    exact (Bool.or_eq_false_iff.mp h).2

theorem hasTripleDot_noDot_append (a b : List Char) (ha : '.' ∉ a) :
    hasTripleDot (a ++ b) = hasTripleDot b := by
  induction a with
  | nil => rfl
  | cons c t ih =>
    have hc : ¬ (c = '.') := fun h => ha (by simp [h])
    rw [List.cons_append, hasTripleDot_cons_ne c (t ++ b) hc]
    exact ih (fun h => ha (by simp [h]))


theorem looks_fuel_irrel (f1 : Nat) (f2 : Nat) (l : List Char)
    (h1 : l.length ≤ f1) (h2 : l.length ≤ f2) :
    looks_like_rust f1 l = looks_like_rust f2 l := by
  induction f1 generalizing f2 l with
  | zero =>
    have : l = [] := List.length_eq_zero.mp (by omega)
    subst this
    rw [looks_nil, looks_nil]
  | succ f1 ih =>
    match l with
    | [] => rw [looks_nil, looks_nil]
    | c :: rest =>
      match f2 with
      | 0 => simp at h2
      | f2 + 1 =>
        by_cases hc1 : c = '$'
        · subst hc1
          rw [looks_step_tok, looks_step_tok]
          cases hlr : lrToken ('$' :: rest) with
          | none => rfl
          | some r =>
            obtain ⟨tok, htok, heq⟩ := lrToken_spec _ _ hlr
            have hlen := rustTokens_len tok htok
            have hr : ('$' :: rest).length = tok.length + r.length := by
              rw [heq, List.length_append]
            simp only [List.length_cons] at h1 h2 hr
            exact ih f2 r (by omega) (by omega)
        · by_cases hc2 : c = '.'
          · subst hc2
            rw [looks_step_dot, looks_step_dot]
            split_ifs with htk
            · rfl
            · simp only [List.length_cons] at h1 h2
              exact ih f2 rest (by omega) (by omega)
          · rw [looks_step_other f1 c rest hc1 hc2, looks_step_other f2 c rest hc1 hc2]
            split_ifs with hcl
            · simp only [List.length_cons] at h1 h2
              exact ih f2 rest (by omega) (by omega)
            · rfl


theorem hasTripleDot_dot_cons (rest : List Char)
    (hguard : ¬ (('.' :: rest).take 3 = ['.', '.', '.']))
    (hrest : hasTripleDot rest = false) :
    hasTripleDot ('.' :: rest) = false := by
  match rest with
  | [] => rfl
  | [x] => rfl
  | x :: y :: t =>
    rw [show hasTripleDot ('.' :: x :: y :: t)
        = ((('.' == '.') && (x == '.') && (y == '.')) || hasTripleDot (x :: y :: t)) from rfl]
    rw [hrest, Bool.or_false]
    cases hx : x == '.'
    · simp
    · cases hy : y == '.'
      · simp
      · exfalso
        apply hguard
        have hx' : x = '.' := by simpa using hx
        have hy' : y = '.' := by simpa using hy
        rw [hx', hy']
        rfl

theorem looks_spec (fuel : Nat) (l : List Char)
    (hfl : l.length ≤ fuel) (h : looks_like_rust fuel l = true) :
    SpecPrefixOK l ∧ hasTripleDot l = false := by
  induction fuel generalizing l with
  | zero =>
    have : l = [] := List.length_eq_zero.mp (by omega)
    subst this
    exact ⟨⟨[], rfl, by simp⟩, rfl⟩
  | succ fuel ih =>
    match l with
    | [] => exact ⟨⟨[], rfl, by simp⟩, rfl⟩
    | c :: rest =>
      by_cases hc1 : c = '$'
      · subst hc1
        rw [looks_step_tok] at h
        cases hlr : lrToken ('$' :: rest) with
        | none => rw [hlr] at h; cases h
        | some r =>
          rw [hlr] at h
          obtain ⟨tok, htok, heq⟩ := lrToken_spec _ _ hlr
          have hlen := rustTokens_len tok htok
          have hr : ('$' :: rest).length = tok.length + r.length := by
            rw [heq, List.length_append]
          simp only [List.length_cons] at hfl hr
          obtain ⟨⟨us', hflat, hall⟩, hnd⟩ := ih r (by omega) h
          refine ⟨⟨tok :: us', by rw [List.flatten_cons, ← hflat]; exact heq, ?_⟩, ?_⟩
          · intro u hu
            rcases List.mem_cons.mp hu with rfl | hu'
            · exact Or.inr htok
            · exact hall u hu'
          · rw [heq, hasTripleDot_noDot_append tok r (rustTokens_no_dot tok htok), hnd]
      · by_cases hc2 : c = '.'
        · subst hc2
          rw [looks_step_dot] at h
          split_ifs at h with htk
          simp only [List.length_cons] at hfl
          obtain ⟨⟨us', hflat, hall⟩, hnd⟩ := ih rest (by omega) h
          refine ⟨⟨['.'] :: us', by rw [List.flatten_cons, ← hflat]; rfl, ?_⟩, ?_⟩
          · intro u hu
            rcases List.mem_cons.mp hu with rfl | hu'
            · exact Or.inl ⟨'.', rfl, by decide⟩
            · exact hall u hu'
          · exact hasTripleDot_dot_cons rest htk hnd
        · rw [looks_step_other fuel c rest hc1 hc2] at h
          split_ifs at h with hcl
          simp only [List.length_cons] at hfl
          obtain ⟨⟨us', hflat, hall⟩, hnd⟩ := ih rest (by omega) h
          refine ⟨⟨[c] :: us', by rw [List.flatten_cons, ← hflat]; rfl, ?_⟩, ?_⟩
          · intro u hu
            rcases List.mem_cons.mp hu with rfl | hu'
            · refine Or.inl ⟨c, rfl, ?_⟩
              simp only [Bool.or_eq_true] at hcl ⊢
              rcases hcl with (hx | hx) | hx
              · exact Or.inl (Or.inl (Or.inl hx))
              · exact Or.inl (Or.inl (Or.inr hx))
              · exact Or.inl (Or.inr hx)
            · exact hall u hu'
          · rw [hasTripleDot_cons_ne c rest hc2, hnd]


theorem tripleDot_of_take (l : List Char) (h : l.take 3 = ['.', '.', '.']) :
    hasTripleDot l = true := by
  match l with
  | [] => cases h
  | [a] => cases h
  | [a, b] => cases h
  | a :: b :: c :: t =>
    obtain ⟨ha, hb, hc⟩ : a = '.' ∧ b = '.' ∧ c = '.' := by
      rw [List.take] at h
      simpa using h
    subst ha; subst hb; subst hc
    rw [show hasTripleDot ('.' :: '.' :: '.' :: t)
        = ((('.' == '.') && ('.' == '.') && ('.' == '.')) || hasTripleDot ('.' :: '.' :: t))
        from rfl]
    simp

theorem rustTokens_headD : ∀ tok ∈ rustTokens, tok.headD ' ' = '$' := by decide

theorem spec_looks (us : List (List Char)) (fuel : Nat)
    (hu : ∀ u ∈ us, SpecUnit u)
    (hnd : hasTripleDot us.flatten = false)
    (hfl : us.flatten.length ≤ fuel) :
    looks_like_rust fuel us.flatten = true := by
  induction us generalizing fuel with
  | nil => exact looks_nil fuel
  | cons u us ih =>
    rw [List.flatten_cons] at hnd hfl ⊢
    have hU := hu u (by simp)
    have hus : ∀ v ∈ us, SpecUnit v := fun v hv => hu v (by simp [hv])
    rcases hU with ⟨c, rfl, hc⟩ | htok
    · match fuel with
      | 0 => simp at hfl
      | fuel + 1 =>
        rw [show ([c] ++ us.flatten) = c :: us.flatten from rfl] at hnd hfl ⊢
        by_cases hdot : c = '.'
        · subst hdot
          rw [looks_step_dot]
          rw [if_neg (fun htk => by rw [tripleDot_of_take _ htk] at hnd; cases hnd)]
          refine ih fuel hus (hasTripleDot_cons_false _ _ hnd) ?_
          simp only [List.length_cons] at hfl
          omega
        · have hdol : ¬ (c = '$') := by
            intro hcon
            subst hcon
            exact absurd hc (by decide)
          rw [looks_step_other fuel c _ hdol hdot]
          rw [if_pos ?hcnd]
          case hcnd =>
            simp only [Bool.or_eq_true, decide_eq_true_eq] at hc ⊢
            rcases hc with ((hx | hx) | hx) | hx
            · exact Or.inl (Or.inl hx)
            · exact Or.inl (Or.inr hx)
            · exact Or.inr hx
            · exact absurd hx hdot
          refine ih fuel hus ?_ ?_
          · rw [hasTripleDot_cons_ne c _ hdot] at hnd
            exact hnd
          · simp only [List.length_cons] at hfl
            omega
    · have hlen := rustTokens_len u htok
      have hne : u ≠ [] := by
        intro hcon
        rw [hcon] at hlen
        simp at hlen
      obtain ⟨ch, t, rfl⟩ := List.exists_cons_of_ne_nil hne
      have hch : ch = '$' := rustTokens_headD _ htok
      subst hch
      match fuel with
      | 0 => simp at hfl
      | fuel + 1 =>
        rw [show (('$' :: t) ++ us.flatten) = '$' :: (t ++ us.flatten) from rfl] at hnd hfl ⊢
        rw [looks_step_tok]
        rw [show ('$' :: (t ++ us.flatten)) = ('$' :: t) ++ us.flatten from rfl,
          lrToken_tok _ _ htok]
        refine ih fuel hus ?_ ?_
        · rw [show ('$' :: (t ++ us.flatten)) = ('$' :: t) ++ us.flatten from rfl] at hnd
          rw [hasTripleDot_noDot_append _ _ (rustTokens_no_dot _ htok)] at hnd
          exact hnd
        · simp only [List.length_cons, List.length_append] at hfl ⊢
          simp only [List.length_cons] at hlen
          omega


theorem distinct_count_eq (digits : List Char)
    (hall : ∀ c ∈ digits, isLowerHex c = true) :
    (List.range 16).countP (fun v => digits.any (fun c => hexVal c = v))
    = (digits.map hexVal).dedup.length := by
  rw [List.countP_eq_length_filter]
  have hnd : ((List.range 16).filter
      (fun v => digits.any (fun c => decide (hexVal c = v)))).Nodup :=
    (List.nodup_range 16).filter _
  rw [← List.dedup_eq_self.mpr hnd]
  rw [← List.card_toFinset, ← List.card_toFinset]
  congr 1
  ext v
  simp only [List.mem_toFinset, List.mem_filter, List.mem_range, List.any_eq_true,
    decide_eq_true_eq, List.mem_map]
  constructor
  · rintro ⟨hv, c, hc, rfl⟩
    exact ⟨c, hc, rfl⟩
  · rintro ⟨c, hc, rfl⟩
    exact ⟨hexVal_lt_16 c (hall c hc), c, hc, rfl⟩


/-- C4: rust_is_mangled accepts exactly the strings of the spec's description:
a nonempty prefix of allowed characters and recognized escape tokens with no
run of three or more dots, followed by the literal suffix `::h` and 16
lowercase hex digits using between 5 and 15 distinct values. -/
theorem C4_rust_is_mangled_iff (sym : List Char) :
    rust_is_mangled sym = true ↔ SpecRustMangled sym := by
  constructor
  · intro h
    simp only [rust_is_mangled] at h
    split_ifs at h with hlen
    rw [Bool.and_eq_true] at h
    obtain ⟨hhash, hlooks⟩ := h
    push_neg at hlen
    set lwh := sym.length - 19 with hlwh
    set pre := sym.take lwh with hpre
    set suf := sym.drop lwh with hsuf
    have hsee : sym = pre ++ suf := (List.take_append_drop lwh sym).symm
    have hsuflen : suf.length = 19 := by
      rw [hsuf, List.length_drop]
      omega
    simp only [is_prefixed_hash] at hhash
    split_ifs at hhash with h3 hdlen hhex
    push_neg at h3 hdlen
    have hhex' : ((suf.drop 3).take 16).all isLowerHex = true := by
      simpa using hhex
    simp only [Bool.and_eq_true, decide_eq_true_eq] at hhash
    have hdrop3 : (suf.drop 3).take 16 = suf.drop 3 := by
      apply List.take_of_length_le
      rw [List.length_drop, hsuflen]
    rw [hdrop3] at hhex' hhash hdlen
    have hsufsplit : suf = ':' :: ':' :: 'h' :: suf.drop 3 := by
      conv_lhs => rw [← List.take_append_drop 3 suf, h3]
      rfl
    have hall : ∀ c ∈ suf.drop 3, isLowerHex c = true := List.all_eq_true.mp hhex'
    have hcnt := distinct_count_eq (suf.drop 3) hall
    obtain ⟨hspec, hnd⟩ := looks_spec sym.length pre (by rw [hpre]; simp) hlooks
    refine ⟨pre, suf.drop 3, ?_, ?_, hdlen, hall, ?_, ?_, hspec, hnd⟩
    · conv_lhs => rw [hsee, hsufsplit]
    · rw [hpre]
      intro hcon
      have := congrArg List.length hcon
      simp only [List.length_take, List.length_nil] at this
      omega
    · rw [specDistinctCount, ← hcnt]
      exact hhash.1
    · rw [specDistinctCount, ← hcnt]
      exact hhash.2
  · rintro ⟨pre, h16, rfl, hpre_ne, hlen16, hall, hc5, hc15, hok, hnd⟩
    have hplen : 1 ≤ pre.length := by
      rcases pre with _ | ⟨a, t⟩
      · exact absurd rfl hpre_ne
      · simp
    have hlen : (pre ++ ':' :: ':' :: 'h' :: h16).length = pre.length + 19 := by
      simp [hlen16]
    have hl : (pre ++ ':' :: ':' :: 'h' :: h16).length - 19 = pre.length := by
      omega
    simp only [rust_is_mangled]
    rw [if_neg (by omega)]
    rw [hl]
    have hdrop : (pre ++ ':' :: ':' :: 'h' :: h16).drop pre.length
        = ':' :: ':' :: 'h' :: h16 := List.drop_left pre _
    have htake : (pre ++ ':' :: ':' :: 'h' :: h16).take pre.length = pre :=
      List.take_left pre _
    rw [hdrop, htake]
    have hhash : is_prefixed_hash (':' :: ':' :: 'h' :: h16) = true := by
      simp only [is_prefixed_hash]
      rw [if_neg (by simp)]
      have ht16 : (List.drop 3 (':' :: ':' :: 'h' :: h16)).take 16 = h16 := by
        rw [show List.drop 3 (':' :: ':' :: 'h' :: h16) = h16 from rfl]
        exact List.take_of_length_le (by omega)
      rw [ht16]
      rw [if_neg (by simp [hlen16])]
      rw [if_neg (by simp [List.all_eq_true.mpr hall])]
      have hcnt := distinct_count_eq h16 hall
      rw [specDistinctCount] at hc5 hc15
      rw [hcnt]
      simp [hc5, hc15]
    rw [hhash, Bool.true_and]
    obtain ⟨us, hflat, hu⟩ := hok
    subst hflat
    exact spec_looks us _ hu hnd (by rw [hlen]; omega)


theorem rustScan_noFail (fuel : Nat) (prev : Option Char) (l : List Char)
    (hfl : l.length ≤ fuel) (hlk : looks_like_rust l.length l = true) :
    (rustScan fuel prev l).failed = false ∧ '?' ∉ (rustScan fuel prev l).out := by
  induction fuel generalizing prev l with
  | zero =>
    match l with
    | [] => rw [rustScan_nil]; exact ⟨rfl, by simp⟩
    | c :: rest => simp at hfl
  | succ fuel ih =>
    match l with
    | [] => rw [rustScan_nil]; exact ⟨rfl, by simp⟩
    | c :: rest =>
      simp only [List.length_cons] at hfl hlk
      by_cases hc1 : c = '$'
      · subst hc1
        rw [looks_step_tok] at hlk
        cases hlr : lrToken ('$' :: rest) with
        | none => rw [hlr] at hlk; cases hlk
        | some r =>
          rw [hlr] at hlk
          obtain ⟨tok, htok, heq⟩ := lrToken_spec _ _ hlr
          have hlen := rustTokens_len tok htok
          have hr : ('$' :: rest).length = tok.length + r.length := by
            rw [heq, List.length_append]
          simp only [List.length_cons] at hr
          obtain ⟨v, hsome, hvq⟩ := rustUnescape_tok tok r htok
          rw [← heq] at hsome
          rw [rustScan_step_tok_some fuel prev rest v r hsome]
          have hlk' : looks_like_rust r.length r = true := by
            rw [looks_fuel_irrel r.length rest.length r (le_refl _) (by omega)]
            exact hlk
          obtain ⟨hf, hq⟩ := ih (some '$') r (by omega) hlk'
          refine ⟨hf, ?_⟩
          intro hmem
          rcases List.mem_cons.mp hmem with rfl | hmem'
          · exact hvq rfl
          · exact hq hmem'
      · by_cases hc2 : c = '_'
        · subst hc2
          rw [looks_step_other rest.length '_' rest (by decide) (by decide)] at hlk
          rw [if_pos (by decide)] at hlk
          rw [rustScan_step_us]
          obtain ⟨hf, hq⟩ := ih (some '_') rest (by omega) hlk
          split_ifs with hdrop
          · exact ⟨hf, hq⟩
          · refine ⟨hf, ?_⟩
            intro hmem
            rcases List.mem_cons.mp hmem with heq' | hmem'
            · cases heq'
            · exact hq hmem'
        · by_cases hc3 : c = '.'
          · subst hc3
            rw [looks_step_dot] at hlk
            split_ifs at hlk with htk
            by_cases hdd : rest.headD ':' = '.'
            · have hne : rest ≠ [] := by
                intro hcon; rw [hcon] at hdd; exact absurd hdd (by decide)
              obtain ⟨c2, rest2, rfl⟩ := List.exists_cons_of_ne_nil hne
              have hc2 : c2 = '.' := hdd
              subst hc2
              rw [rustScan_step_dotdot]
              have htk2 : ¬ (('.' :: rest2).take 3 = ['.', '.', '.']) := by
                intro hcon
                apply htk
                rcases rest2 with _ | ⟨x, t⟩
                · cases hcon
                · obtain ⟨hx, -⟩ : x = '.' ∧ t.take 1 = ['.'] := by
                    simpa [List.take] using hcon
                  subst hx
                  rfl
              simp only [List.length_cons] at hlk
              rw [looks_step_dot] at hlk
              rw [if_neg htk2] at hlk
              have hlk2 : looks_like_rust rest2.length rest2 = true := by
                rw [looks_fuel_irrel rest2.length rest2.length rest2 (le_refl _) (le_refl _)]
                exact hlk
              obtain ⟨hf, hq⟩ := ih (some '.') rest2 (by simp at hfl; omega) hlk2
              refine ⟨hf, ?_⟩
              intro hmem
              rcases List.mem_cons.mp hmem with heq' | hmem'
              · cases heq'
              rcases List.mem_cons.mp hmem' with heq' | hmem''
              · cases heq'
              · exact hq hmem''
            · rw [rustScan_step_dot1 fuel prev rest hdd]
              obtain ⟨hf, hq⟩ := ih (some '.') rest (by omega) hlk
              refine ⟨hf, ?_⟩
              intro hmem
              rcases List.mem_cons.mp hmem with heq' | hmem'
              · cases heq'
              · exact hq hmem'
          · rw [looks_step_other rest.length c rest hc1 hc3] at hlk
            split_ifs at hlk with hcl
            have hcl' : (isLetterDigit c || decide (c = ':')) = true := by
              simp only [Bool.or_eq_true, decide_eq_true_eq] at hcl ⊢
              rcases hcl with (hx | hx) | hx
              · exact Or.inl hx
              · exact absurd hx hc2
              · exact Or.inr hx
            rw [rustScan_step_copy fuel prev c rest hc1 hc2 hc3 hcl']
            obtain ⟨hf, hq⟩ := ih (some c) rest (by omega) hlk
            refine ⟨hf, ?_⟩
            intro hmem
            rcases List.mem_cons.mp hmem with rfl | hmem'
            · exact absurd hcl' (by decide)
            · exact hq hmem'


/-- C5: the documented Rust example, after stage-1 demangling, is rewritten to
exactly the human-readable name, with the `::h` + 16-hex-digit hash suffix
dropped entirely from the output. -/
theorem C5_rust_demangle_example :
    rust_is_mangled
      "_$LT$std..sys..fd..FileDesc$u20$as$u20$core..ops..Drop$GT$::drop::hc68340e1baa4987a".toList
      = true
    ∧ rust_demangle_sym
      "_$LT$std..sys..fd..FileDesc$u20$as$u20$core..ops..Drop$GT$::drop::hc68340e1baa4987a".toList
      = "<std::sys::fd::FileDesc as core::ops::Drop>::drop".toList :=
  ⟨by decide, by decide⟩

/-- C9: decoded output is never longer than the input.  The Z-decoded soname
and fnname have length at most the input length (so the strlen(sym)+1 sized
buffers cannot overflow), and in rust_demangle_sym, under its documented
precondition, the write cursor ends at most at the end of the original
string: the characters written plus the final NUL fit in the original length
(the vg_assert(out <= never_after)), the output being NUL-terminated by
construction. -/
theorem C9_output_length_bounds (sym : List Char) (w x y z : Bool) :
    (maybe_Z_demangle sym w x y z).so.length ≤ sym.length
    ∧ (maybe_Z_demangle sym w x y z).fn.length ≤ sym.length
    ∧ (rust_is_mangled sym = true →
        (rust_demangle_sym sym).length + 1 ≤ sym.length) := by
  obtain ⟨h1, h2⟩ := maybe_Z_len_le sym w x y z
  refine ⟨h1, h2, ?_⟩
  intro hr
  have hlen : 19 < sym.length := by
    by_contra hcon
    push_neg at hcon
    simp only [rust_is_mangled] at hr
    rw [if_pos hcon] at hr
    cases hr
  have hb := rustScan_out_le sym.length none (sym.take (sym.length - 19))
  have ht : (sym.take (sym.length - 19)).length = sym.length - 19 := by
    simp only [List.length_take]
    omega
  rw [rust_demangle_sym, rust_demangle_res]
  omega

/-- C9 witness: the bounds evaluated on a concrete Rust-mangled symbol. -/
theorem C9_witness :
    (maybe_Z_demangle "f::h0000000000001234".toList true true true true).so.length
      ≤ "f::h0000000000001234".toList.length
    ∧ (maybe_Z_demangle "f::h0000000000001234".toList true true true true).fn.length
      ≤ "f::h0000000000001234".toList.length
    ∧ (rust_demangle_sym "f::h0000000000001234".toList).length + 1
      ≤ "f::h0000000000001234".toList.length := by
  have h := C9_output_length_bounds "f::h0000000000001234".toList true true true true
  exact ⟨h.1, h.2.1, h.2.2 (by decide)⟩

/-- C10: on any symbol accepted by rust_is_mangled, rust_demangle_sym never
reaches its failure branch: the fail label is not taken and the `?`
placeholder is never emitted, because every character and token the scan can
meet before the hash boundary was already accepted by looks_like_rust with
the same token set. -/
theorem C10_no_fail_branch (sym : List Char) (h : rust_is_mangled sym = true) :
    (rust_demangle_res sym).failed = false ∧ '?' ∉ rust_demangle_sym sym := by
  have hsplit : 19 < sym.length
      ∧ looks_like_rust sym.length (sym.take (sym.length - 19)) = true := by
    simp only [rust_is_mangled] at h
    split_ifs at h with hl
    rw [Bool.and_eq_true] at h
    exact ⟨by omega, h.2⟩
  have hlk : looks_like_rust (sym.take (sym.length - 19)).length
      (sym.take (sym.length - 19)) = true := by
    rw [looks_fuel_irrel (sym.take (sym.length - 19)).length sym.length
      (sym.take (sym.length - 19)) (le_refl _) (by simp)]
    exact hsplit.2
  rw [rust_demangle_sym, rust_demangle_res]
  exact rustScan_noFail sym.length none (sym.take (sym.length - 19)) (by simp) hlk

/-- C10 witness: the no-failure property evaluated on a concrete symbol. -/
theorem C10_witness :
    (rust_demangle_res "abc::h0123456789abcdde".toList).failed = false
    ∧ '?' ∉ rust_demangle_sym "abc::h0123456789abcdde".toList :=
  C10_no_fail_branch "abc::h0123456789abcdde".toList (by decide)


/-- C2 as stated is false: on a top-level call that does not reach the
stage-1 branch (here do_cxx_demangling is unset), the previously retained
buffer is not released — no free event occurs and the static pointer still
holds the old contents after the call. -/
theorem C2_counterexample :
    VG_demangle (fun _ => none) false false true ['a'] (some ['b'])
      = some { result := ['a'], st := some ['b'], evs := [] } := by decide

/-- C2 amended: a top-level call either performs no heap events at all and
leaves the retained buffer unchanged (when it does not invoke stage-1), or
it frees exactly the previously retained buffer — and nothing else — before
the single invocation of the external stage-1 demangler.  This is the single
release point. -/
theorem C2_single_release_point (cxx : List Char → Option (List Char))
    (do_cxx do_z clo : Bool) (orig : List Char) (st : Option (List Char)) (r : DemRet)
    (h : VG_demangle cxx do_cxx do_z clo orig st = some r) :
    (r.evs = [] ∧ r.st = st)
    ∨ (∃ arg, r.evs = st.elim ([] : List Ev) (fun b => [Ev.free b]) ++ [Ev.callCxx arg]) := by
  simp only [VG_demangle] at h
  by_cases h1 : (do_z && (maybe_Z_demangle orig false false false false).res == ZRes.fatal) = true
  · rw [if_pos h1] at h
    cases h
  · rw [if_neg h1] at h
    by_cases h2 : (do_cxx && clo && (getC (zPass do_z orig) 0 == '_')
        && (getC (zPass do_z orig) 1 == 'Z')) = true
    · rw [if_pos h2] at h
      right
      cases hc : cxx (zPass do_z orig) with
      | none =>
        rw [hc] at h
        obtain rfl := Option.some.inj h
        refine ⟨zPass do_z orig, ?_⟩
        cases st <;> rfl
      | some d =>
        rw [hc] at h
        obtain rfl := Option.some.inj h
        refine ⟨zPass do_z orig, ?_⟩
        cases st <;> rfl
    · rw [if_neg h2] at h
      left
      obtain rfl := Option.some.inj h
      exact ⟨rfl, rfl⟩

/-- C2 witness: a call that invokes stage-1 frees the previous buffer first,
then calls the external demangler. -/
theorem C2_witness :
    ((DemRet.mk ['x'] (some ['x'])
        [Ev.free ['q'], Ev.callCxx ['_', 'Z', 'a', 'b']]).evs = []
      ∧ (DemRet.mk ['x'] (some ['x'])
        [Ev.free ['q'], Ev.callCxx ['_', 'Z', 'a', 'b']]).st = some ['q'])
    ∨ (∃ arg, (DemRet.mk ['x'] (some ['x'])
        [Ev.free ['q'], Ev.callCxx ['_', 'Z', 'a', 'b']]).evs
        = (some ['q']).elim ([] : List Ev) (fun b => [Ev.free b]) ++ [Ev.callCxx arg]) :=
  C2_single_release_point (fun _ => some ['x']) true true true ['_', 'Z', 'a', 'b']
    (some ['q'])
    (DemRet.mk ['x'] (some ['x']) [Ev.free ['q'], Ev.callCxx ['_', 'Z', 'a', 'b']])
    (by decide)

/-- C7: when do_cxx is unset, or the (possibly Z-decoded) string does not
begin with `_Z`, or the external stage-1 demangler returns no result, the
returned string is the pre-stage-1 string unchanged; only when stage-1
succeeds does the result point to the (possibly Rust-rewritten) heap-owned
buffer, which becomes the new retained buffer. -/
theorem C7_result_fallback (cxx : List Char → Option (List Char))
    (do_cxx do_z clo : Bool) (orig : List Char) (st : Option (List Char)) (r : DemRet)
    (h : VG_demangle cxx do_cxx do_z clo orig st = some r) :
    ((do_cxx = false
      ∨ ¬ (getC (zPass do_z orig) 0 = '_' ∧ getC (zPass do_z orig) 1 = 'Z')
      ∨ cxx (zPass do_z orig) = none) →
      r.result = zPass do_z orig)
    ∧ (∀ d, do_cxx = true → clo = true
        → getC (zPass do_z orig) 0 = '_' → getC (zPass do_z orig) 1 = 'Z'
        → cxx (zPass do_z orig) = some d →
        r.result = (if rust_is_mangled d then rust_demangle_sym d else d)
        ∧ r.st = some r.result) := by
  simp only [VG_demangle] at h
  by_cases h1 : (do_z && (maybe_Z_demangle orig false false false false).res == ZRes.fatal) = true
  · rw [if_pos h1] at h
    cases h
  · rw [if_neg h1] at h
    by_cases h2 : (do_cxx && clo && (getC (zPass do_z orig) 0 == '_')
        && (getC (zPass do_z orig) 1 == 'Z')) = true
    · rw [if_pos h2] at h
      constructor
      · intro hfb
        cases hc : cxx (zPass do_z orig) with
        | none =>
          rw [hc] at h
          obtain rfl := Option.some.inj h
          rfl
        | some d =>
          rw [hc] at h
          obtain rfl := Option.some.inj h
          rcases hfb with hfb | hfb | hfb
          · rw [Bool.and_eq_true, Bool.and_eq_true, Bool.and_eq_true] at h2
            rw [hfb] at h2
            simp at h2
          · rw [Bool.and_eq_true, Bool.and_eq_true, Bool.and_eq_true] at h2
            obtain ⟨⟨⟨hcx, hclo⟩, hm0⟩, hm1⟩ := h2
            exact absurd ⟨by simpa using hm0, by simpa using hm1⟩ hfb
          · rw [hfb] at hc
            cases hc
      · intro d hcx hclo hm0 hm1 hsome
        rw [hsome] at h
        obtain rfl := Option.some.inj h
        exact ⟨rfl, rfl⟩
    · rw [if_neg h2] at h
      constructor
      · intro hfb
        obtain rfl := Option.some.inj h
        rfl
      · intro d hcx hclo hm0 hm1 hsome
        exfalso
        apply h2
        rw [hcx, hclo]
        simp only [Bool.true_and]
        rw [Bool.and_eq_true]
        constructor
        · simpa using hm0
        · simpa using hm1

/-- C7 witness: a call where stage-1 returns no result leaves the
pre-stage-1 string as the result. -/
theorem C7_witness :
    (DemRet.mk ['_', 'Z', 'a', 'b'] none
      [Ev.callCxx ['_', 'Z', 'a', 'b']]).result = zPass false ['_', 'Z', 'a', 'b'] :=
  (C7_result_fallback (fun _ => none) true false true ['_', 'Z', 'a', 'b'] none
    (DemRet.mk ['_', 'Z', 'a', 'b'] none [Ev.callCxx ['_', 'Z', 'a', 'b']])
    (by decide)).1 (Or.inr (Or.inr rfl))

end Demangle
